import Mathlib

/-!
Verification of the road-graph augmentation and validation pipeline
(`scripts/augment_road_segments.py` and `scripts/validate_road_graph.py`).

The Python code is shallowly embedded:
* Python floats are modelled as rationals (`ℚ`); the decimal literals of the
  source become the corresponding exact rationals.
* `math.sqrt` appears only inside comparisons of the form
  `sqrt (dx²+dz²) < r` with `r ≥ 0`; these are embedded as the equivalent
  comparison `dx²+dz² < r²` (squaring is monotone on nonnegative reals).
* `math.atan2`-based heading computation (`compute_heading`) is transcendental;
  it is modelled as an explicit function parameter `hf` wherever headings are
  produced.  All properties under study are stated over the heading values.
* Fallible code (list indexing that can raise `IndexError`, `min`/`max` of an
  empty list, dictionary `KeyError`) returns `Option`, with `none` for the
  raising executions.
* Python dicts keyed by strings are modelled as association lists of writes
  (lookup returns the last write), or by index-threaded lists where the key
  set is `0..n-1`.
-/

/- ================= Constants (`augment_road_segments.py`, lines 34-46) ================= -/

def SNAP_RADIUS : ℚ := 10

def ANGLE_THRESHOLD : ℚ := 60

def SPAWN_RATE_THRESHOLD : ℚ := 3/10

def SPEED_RATIO_THRESHOLD : ℚ := 1/2

def LENGTH_THRESHOLD : ℚ := 150

def BOUNDARY_BUFFER : ℚ := 50

/- ================= Basic data ================= -/

/-- The 3-D points of a segment polyline (x, y, z); the graph logic reads
only coordinates 0 (x) and 2 (z). -/
abbrev Point3D := ℚ × ℚ × ℚ

/-- `Endpoint` record collected by `build_node_set` (one per segment extremity). -/
structure Endpoint where
  x : ℚ
  z : ℚ
  segmentId : String
  isStart : Bool
deriving DecidableEq

/-- An input segment record (`road_segments.json` schema). -/
structure Seg where
  id : String
  points : List Point3D
  avgSpeedMph : ℚ
  freeFlowSpeedMph : ℚ
  spawnRates : List ℚ
deriving DecidableEq

/-- A segment together with the headings computed by the first pass of
`build_adjacency`. -/
structure HSeg extends Seg where
  startHeadingDeg : ℚ
  endHeadingDeg : ℚ
deriving DecidableEq

/-- A segment after the adjacency pass (successors and predecessors filled in). -/
structure ASeg extends HSeg where
  successors : List String
  predecessors : List String
deriving DecidableEq

/-- A road node (`RoadNode` in the script).  The script's node id is the
string `node_%04d` applied to the cluster index; only the index is modelled.
`position` stores the centroid rounded to two decimals as in the source
(`round(cx, 2)`). -/
structure RoadNode where
  id : ℕ
  position : ℚ × ℚ
  outgoing : List String
  incoming : List String
  isBoundary : Bool
deriving DecidableEq

/-- Bounding box of the input data (`DATA_BOUNDS`). -/
structure Bounds where
  xMin : ℚ
  xMax : ℚ
  zMin : ℚ
  zMax : ℚ
deriving DecidableEq

/- ================= Helper functions ================= -/

/-- Squared Euclidean distance between two endpoints.  The source's
`distance` returns `sqrt (dx²+dz²)`; every use compares it against
`SNAP_RADIUS`, which is embedded as `distSq < SNAP_RADIUS ^ 2`. -/
def distSq (p1 p2 : Endpoint) : ℚ :=
  let dx := p1.x - p2.x
  let dz := p1.z - p2.z
  dx * dx + dz * dz

/-- `angle_difference` (lines 138-141): minimum angle difference between two
headings, `min |h1-h2| (360 - |h1-h2|)`. -/
def angle_difference (h1 h2 : ℚ) : ℚ :=
  let diff := |h1 - h2|
  min diff (360 - diff)

/-- Python's `round(q, 2)`: round half to even at two decimal places.
(The source applies it to floats; the tie-breaking branch is immaterial to
every property proved below.) -/
def roundHalfEven2 (q : ℚ) : ℚ :=
  let y := q * 100
  let f : ℤ := ⌊y⌋
  let r := y - f
  if r < 1/2 then (f : ℚ) / 100
  else if 1/2 < r then ((f : ℚ) + 1) / 100
  else if f % 2 = 0 then (f : ℚ) / 100 else ((f : ℚ) + 1) / 100

/-- `is_near_boundary` (lines 171-178). -/
def isNearBoundary (b : Bounds) (x z : ℚ) : Bool :=
  decide (x < b.xMin + BOUNDARY_BUFFER) ||
  decide (b.xMax - BOUNDARY_BUFFER < x) ||
  decide (z < b.zMin + BOUNDARY_BUFFER) ||
  decide (b.zMax - BOUNDARY_BUFFER < z)

/-- `compute_data_bounds` (lines 154-166): min/max of all raw point
coordinates; `min`/`max` of an empty list raises in Python (`none` here). -/
def computeDataBounds (segs : List Seg) : Option Bounds := do
  let xs := segs.flatMap fun s => s.points.map fun p => p.1
  let zs := segs.flatMap fun s => s.points.map fun p => p.2.2
  let xMin ← xs.min?
  let xMax ← xs.max?
  let zMin ← zs.min?
  let zMax ← zs.max?
  pure ⟨xMin, xMax, zMin, zMax⟩

/- ================= Union-find (lines 88-112) ================= -/

/-- The `UnionFind` class.  The Python keys are the endpoint-index strings
`"0"`, `"1"`, …; they are modelled as the natural numbers themselves.  The
dictionaries become total functions that are the identity (parent) resp. zero
(rank) outside the populated index range — `make_set` over `0..n-1` yields
exactly that state. -/
structure UF where
  parent : ℕ → ℕ
  rank : ℕ → ℕ

/-- State after `make_set(x)` for every `x < n`. -/
def UF.init : UF := ⟨fun x => x, fun _ => 0⟩

/-- `UnionFind.find` with path compression, returning the root and the
updated parent map.  The Python recursion depth is the length of the parent
chain, which never exceeds the number of elements; the embedding realizes
termination with a fuel argument that every call site instantiates with the
element count (shown sufficient in `findRoot_fix`). -/
def findCompress : ℕ → (ℕ → ℕ) → ℕ → ℕ × (ℕ → ℕ)
  | 0, p, x => (x, p)
  | fuel + 1, p, x =>
      if p x = x then (x, p)
      else
        let res := findCompress fuel p (p x)
        (res.1, fun y => if y = x then res.1 else res.2 y)

/-- The root returned by `find`, without the compression side effect
(used to state properties of the parent forest). -/
def findRoot : ℕ → (ℕ → ℕ) → ℕ → ℕ
  | 0, _, x => x
  | fuel + 1, p, x => if p x = x then x else findRoot fuel p (p x)

/-- `UnionFind.union` (lines 103-112): find both roots (with compression),
then link by rank. -/
def UF.union (n : ℕ) (uf : UF) (x y : ℕ) : UF :=
  let fx := findCompress n uf.parent x
  let fy := findCompress n fx.2 y
  let rx := fx.1
  let ry := fy.1
  if rx = ry then { parent := fy.2, rank := uf.rank }
  else
    let rx' := if uf.rank rx < uf.rank ry then ry else rx
    let ry' := if uf.rank rx < uf.rank ry then rx else ry
    { parent := fun z => if z = ry' then rx' else fy.2 z,
      rank :=
        if uf.rank rx' = uf.rank ry' then
          fun z => if z = rx' then uf.rank rx' + 1 else uf.rank z
        else uf.rank }

/- ================= Endpoint clustering (`build_node_set`, lines 192-279) ================= -/

/-- Default endpoint used only to totalize in-range list indexing. -/
def epDefault : Endpoint := ⟨0, 0, "", true⟩

/-- `endpoints[i]`. -/
def epAt (eps : List Endpoint) (i : ℕ) : Endpoint := eps.getD i epDefault

/-- The two endpoints a segment contributes (lines 199-215): the first and
last polyline points.  `pts[0]` / `pts[-1]` raise on an empty list (`none`). -/
def segEndpoints (s : Seg) : Option (Endpoint × Endpoint) :=
  match s.points.head?, s.points.getLast? with
  | some p0, some pl =>
      some (⟨p0.1, p0.2.2, s.id, true⟩, ⟨pl.1, pl.2.2, s.id, false⟩)
  | _, _ => none

/-- Option-valued traversal of a list, mirroring a Python `for` loop whose
body can raise: the first raising element aborts the whole loop. -/
def listMapM {A B : Type} (f : A → Option B) : List A → Option (List B)
  | [] => some []
  | a :: l => do
      let b ← f a
      let bs ← listMapM f l
      pure (b :: bs)

/-- Collect all endpoints, two per segment, in segment order. -/
def collectEndpoints (segs : List Seg) : Option (List Endpoint) :=
  (listMapM segEndpoints segs).map fun l => l.flatMap fun pq => [pq.1, pq.2]

/-- The ordered pair list traversed by the merge loop
(`for i in range(n): for j in range(i+1, n)`). -/
def allPairs (n : ℕ) : List (ℕ × ℕ) :=
  (List.range n).flatMap fun i => (List.range' (i + 1) (n - (i + 1))).map fun j => (i, j)

/-- The merge condition `distance(endpoints[i], endpoints[j]) < SNAP_RADIUS`. -/
def closePair (eps : List Endpoint) (i j : ℕ) : Bool :=
  decide (distSq (epAt eps i) (epAt eps j) < SNAP_RADIUS ^ 2)

/-- One iteration of the merge loop: union the pair when it is close. -/
def mergeStep (eps : List Endpoint) (uf : UF) (ij : ℕ × ℕ) : UF :=
  if closePair eps ij.1 ij.2 then UF.union eps.length uf ij.1 ij.2 else uf

/-- The union-find state after the merge loop (lines 219-232). -/
def clusterUF (eps : List Endpoint) : UF :=
  (allPairs eps.length).foldl
    (fun uf ij => if closePair eps ij.1 ij.2 then UF.union eps.length uf ij.1 ij.2 else uf)
    UF.init

/-- The grouping loop (lines 237-240) calls `uf.find` once per endpoint,
threading the compressed parent map; the collected list holds each
endpoint's cluster root. -/
def computeRoots (n : ℕ) (p : ℕ → ℕ) : List ℕ × (ℕ → ℕ) :=
  (List.range n).foldl
    (fun acc i =>
      let fc := findCompress n acc.2 i
      (acc.1 ++ [fc.1], fc.2))
    ([], p)

def rootsListOf (eps : List Endpoint) : List ℕ :=
  (computeRoots eps.length (clusterUF eps).parent).1

/-- Cluster keys in dictionary insertion order (first occurrence of each
root), mirroring `defaultdict` iteration order. -/
def firstOcc (l : List ℕ) : List ℕ :=
  l.foldl (fun acc r => if r ∈ acc then acc else acc ++ [r]) []

/-- Endpoint-index members of each cluster, in the order the script's
`clusters` dict holds them. -/
def clusterMembersOf (eps : List Endpoint) : List (List ℕ) :=
  let roots := rootsListOf eps
  (firstOcc roots).map fun r =>
    (List.range eps.length).filter fun i => roots.getD i 0 = r

/-- The index of the node an endpoint is assigned to (the position of its
cluster in the `clusters` dict). -/
def endpointNodeIndex (eps : List Endpoint) (i : ℕ) : ℕ :=
  (firstOcc (rootsListOf eps)).findIdx fun r => r = (rootsListOf eps).getD i 0

/-- Centroid of a cluster (lines 250-252). -/
def clusterCentroid (eps : List Endpoint) (mem : List ℕ) : ℚ × ℚ :=
  ((mem.map fun i => (epAt eps i).x).sum / mem.length,
   (mem.map fun i => (epAt eps i).z).sum / mem.length)

/-- Build one `RoadNode` from a cluster (lines 249-274).  `isBoundary` is
computed from the unrounded centroid, the stored position is rounded. -/
def mkRoadNode (bounds : Bounds) (eps : List Endpoint) (k : ℕ) (mem : List ℕ) : RoadNode :=
  let c := clusterCentroid eps mem
  { id := k
    position := (roundHalfEven2 c.1, roundHalfEven2 c.2)
    outgoing := (mem.filter fun i => (epAt eps i).isStart).map fun i => (epAt eps i).segmentId
    incoming := (mem.filter fun i => !(epAt eps i).isStart).map fun i => (epAt eps i).segmentId
    isBoundary := isNearBoundary bounds c.1 c.2 }

/-- The `start_node_map` writes, in program order (cluster index ascending,
member index ascending). -/
def startNodeWrites (eps : List Endpoint) : List (String × ℕ) :=
  (clusterMembersOf eps).enum.flatMap fun km =>
    ((km.2.filter fun i => (epAt eps i).isStart).map fun i => ((epAt eps i).segmentId, km.1))

/-- The `end_node_map` writes. -/
def endNodeWrites (eps : List Endpoint) : List (String × ℕ) :=
  (clusterMembersOf eps).enum.flatMap fun km =>
    ((km.2.filter fun i => !(epAt eps i).isStart).map fun i => ((epAt eps i).segmentId, km.1))

/-- Dictionary lookup over a write list: the value of the last write wins
(Python dict assignment semantics). -/
def dictLookup (writes : List (String × ℕ)) (k : String) : Option ℕ :=
  (writes.reverse.find? fun w => w.1 = k).map fun w => w.2

/-- Node list produced by `build_node_set`. -/
def nodesOf (bounds : Bounds) (eps : List Endpoint) : List RoadNode :=
  (clusterMembersOf eps).enum.map fun km => mkRoadNode bounds eps km.1 km.2

/-- `build_node_set` (lines 192-279): collect endpoints, cluster them, build
nodes and the two endpoint-to-node maps. -/
def buildNodeSet (bounds : Bounds) (segs : List Seg) :
    Option (List RoadNode × List (String × ℕ) × List (String × ℕ)) :=
  (collectEndpoints segs).map fun eps =>
    (nodesOf bounds eps, startNodeWrites eps, endNodeWrites eps)

/- ================= Adjacency (`build_adjacency`, lines 282-331) ================= -/

/-- First pass of `build_adjacency` (lines 291-294): compute
`startHeadingDeg = compute_heading(pts[0], pts[1])` and
`endHeadingDeg = compute_heading(pts[-2], pts[-1])`.  `compute_heading`
(an `atan2` of the leg vector) is the function parameter `hf`.  The index
accesses raise unless the polyline has at least two points. -/
def segHeadings (hf : Point3D → Point3D → ℚ) (s : Seg) : Option HSeg :=
  match s.points with
  | p0 :: p1 :: _ =>
      some { toSeg := s
             startHeadingDeg := hf p0 p1
             endHeadingDeg :=
               hf (s.points.getD (s.points.length - 2) (0, 0, 0))
                  (s.points.getD (s.points.length - 1) (0, 0, 0)) }
  | _ => none

def headingPass (hf : Point3D → Point3D → ℚ) (segs : List Seg) : Option (List HSeg) :=
  listMapM (segHeadings hf) segs

/-- `seg_map` lookup (`seg_map = {s['id']: s}`): the last segment with the
given id wins; `none` is Python's `KeyError`. -/
def segMapLookup (hsegs : List HSeg) (cid : String) : Option HSeg :=
  hsegs.reverse.find? fun s => s.id = cid

/-- The successor-selection loop for one segment (lines 305-316): walk the
end node's `outgoing` list, skip the segment itself, and keep each candidate
whose start heading is within `ANGLE_THRESHOLD` of the segment's end
heading.  A candidate id missing from `seg_map` raises (`none`). -/
def selectSuccessors (s : HSeg) (segMap : String → Option HSeg) :
    List String → Option (List String)
  | [] => some []
  | cid :: rest =>
      if cid = s.id then selectSuccessors s segMap rest
      else
        match segMap cid with
        | none => none
        | some c =>
            (selectSuccessors s segMap rest).map fun tail =>
              if angle_difference s.endHeadingDeg c.startHeadingDeg ≤ ANGLE_THRESHOLD then
                cid :: tail
              else tail

/-- Second pass (lines 296-316): compute every segment's successors.  The end
node is `nodes[end_node_map[seg['id']]]`; a missing map entry or node raises. -/
def successorsPass (nodes : List RoadNode) (emap : List (String × ℕ))
    (hsegs : List HSeg) : Option (List (HSeg × List String)) :=
  listMapM
    (fun s => do
      let k ← dictLookup emap s.id
      let nd ← nodes.get? k
      let succs ← selectSuccessors s (segMapLookup hsegs) nd.outgoing
      pure (s, succs))
    hsegs

/-- Third pass (lines 320-326): `predecessors` of a segment are the ids of
all segments listing it as a successor, one entry per successor occurrence,
in segment order. -/
def predecessorsOf (ss : List (HSeg × List String)) (tid : String) : List String :=
  ss.flatMap fun sp => (sp.2.filter fun c => c = tid).map fun _ => sp.1.id

/-- `build_adjacency` (lines 282-331): successors then predecessors. -/
def buildAdjacency (nodes : List RoadNode) (emap : List (String × ℕ))
    (hsegs : List HSeg) : Option (List ASeg) :=
  (successorsPass nodes emap hsegs).map fun ss =>
    ss.map fun sp =>
      { toHSeg := sp.1
        successors := sp.2
        predecessors := predecessorsOf ss sp.1.id }

/-- The augmentation pipeline through the adjacency pass, as `main` runs it
(lines 376-394): data bounds, then node clustering, then headings and
adjacency.  Any Python exception along the way is `none`. -/
def adjacencyPipeline (hf : Point3D → Point3D → ℚ) (segs : List Seg) :
    Option (List ASeg × List RoadNode) := do
  let bounds ← computeDataBounds segs
  let (nodes, _smap, emap) ← buildNodeSet bounds segs
  let hsegs ← headingPass hf segs
  let asegs ← buildAdjacency nodes emap hsegs
  pure (asegs, nodes)

/- ================= Classification (`augment_segments`, lines 354-361) ================= -/

/-- The `isMajor` classification: `max(spawnRates) > SPAWN_RATE_THRESHOLD or
speedRatio > SPEED_RATIO_THRESHOLD or lengthMeters > LENGTH_THRESHOLD`.
`max` of an empty list raises (`none`). -/
def isMajorOf (spawnRates : List ℚ) (speedRatio lengthMeters : ℚ) : Option Bool :=
  spawnRates.max?.map fun maxSpawn =>
    decide (SPAWN_RATE_THRESHOLD < maxSpawn) ||
    decide (SPEED_RATIO_THRESHOLD < speedRatio) ||
    decide (LENGTH_THRESHOLD < lengthMeters)

/- ================= Graph version (`compute_graph_version`, lines 181-185) ================= -/

/-- The string hashed by `compute_graph_version`:
`'|'.join(f"id:len(points)" for s in sorted(segments, key=lambda x: x['id']))`.
`sorted` is Python's stable sort by id; it is modelled by insertion sort,
which computes the same list as any stable sort on the same key.
`'|'.join` is embedded as the structural `joinBar`. -/
def joinBar : List String → String
  | [] => ""
  | [s] => s
  | s :: l => s ++ "|" ++ joinBar l

def graphVersionData (segs : List Seg) : String :=
  joinBar
    ((List.insertionSort (fun a b => a.id ≤ b.id) segs).map fun s =>
      s.id ++ ":" ++ toString s.points.length)

/-- `compute_graph_version`.  The external call
`hashlib.md5(data.encode()).hexdigest()[:12]` is modelled by the
uninterpreted function parameter `hash` (library code, not part of this
repository). -/
def compute_graph_version (hash : String → String) (segs : List Seg) : String :=
  hash (graphVersionData segs)

/- ================= Validator (`validate_road_graph.py`) ================= -/

/-- Validation thresholds (lines 35-37). -/
def LARGEST_COMPONENT_THRESHOLD : ℚ := 9/10

def INTERIOR_DEAD_END_THRESHOLD : ℚ := 5/100

def ENTRY_REACHABILITY_THRESHOLD : ℚ := 85/100

/-- A segment record as the validator reads it
(`road_segments_graph.json`). -/
structure VSeg where
  id : String
  successors : List String
  predecessors : List String
  isEntry : Bool
  isMajor : Bool
  endNodeId : String
deriving DecidableEq

/-- A node record as the validator reads it (`road_nodes.json`). -/
structure VNode where
  id : String
  isBoundary : Bool
deriving DecidableEq

/-- Lookup in the validator's `segments` dict (`{s['id']: s}`). -/
def vsegLookup (segs : List VSeg) (sid : String) : Option VSeg :=
  segs.reverse.find? fun s => s.id = sid

/-- `sid in segments`. -/
def vsegMem (segs : List VSeg) (sid : String) : Bool :=
  segs.any fun s => s.id = sid

/-- Fuel bound for the BFS while-loops: every loop iteration pops one queue
entry, and the total number of enqueues is at most the seed count plus the
total number of adjacency-list entries, so this fuel is never exhausted. -/
def bfsFuel (segs : List VSeg) : ℕ :=
  segs.length + (segs.map fun s => s.successors.length + s.predecessors.length).sum + 1

/-- The BFS loop of `find_connected_components` (lines 88-107): pop, skip if
visited, otherwise visit and enqueue unvisited successors and predecessors
that exist in the segment dict.  Returns the component (newly visited ids in
visit order) and the updated visited set. -/
def bfsComponent (segs : List VSeg) :
    ℕ → List String → List String → List String × List String
  | 0, _, visited => ([], visited)
  | _ + 1, [], visited => ([], visited)
  | fuel + 1, current :: queue, visited =>
      if current ∈ visited then bfsComponent segs fuel queue visited
      else
        let visited' := current :: visited
        match vsegLookup segs current with
        | none => bfsComponent segs fuel queue visited'
        | some seg =>
            let q1 := queue ++ seg.successors.filter fun c => c ∉ visited' && vsegMem segs c
            let q2 := q1 ++ seg.predecessors.filter fun c => c ∉ visited' && vsegMem segs c
            let res := bfsComponent segs fuel q2 visited'
            (current :: res.1, res.2)

/-- `find_connected_components` (lines 72-111): BFS from every unvisited
segment id, in input order; then sort components by size, descending.
Python's `sort(key=len, reverse=True)` is a stable sort; it is modelled by
insertion sort with the corresponding non-strict relation. -/
def findConnectedComponents (segs : List VSeg) : List (List String) :=
  let raw := (segs.foldl
    (fun acc s =>
      if s.id ∈ acc.2 then acc
      else
        let res := bfsComponent segs (bfsFuel segs) [s.id] acc.2
        (acc.1 ++ [res.1], res.2))
    ([], [])).1
  List.insertionSort (fun a b => b.length ≤ a.length) raw

/-- The BFS loop of `find_reachable_from_entries` (lines 123-136): forward
edges only; a popped id absent from the dict is still recorded as reachable
(`segments.get` is `None`-safe). -/
def bfsReachable (segs : List VSeg) :
    ℕ → List String → List String → List String
  | 0, _, reachable => reachable
  | _ + 1, [], reachable => reachable
  | fuel + 1, current :: queue, reachable =>
      if current ∈ reachable then bfsReachable segs fuel queue reachable
      else
        let reachable' := current :: reachable
        match vsegLookup segs current with
        | none => bfsReachable segs fuel queue reachable'
        | some seg =>
            bfsReachable segs fuel
              (queue ++ seg.successors.filter fun c => c ∉ reachable' && vsegMem segs c)
              reachable'

/-- `find_reachable_from_entries` (lines 114-136). -/
def findReachableFromEntries (segs : List VSeg) : List String :=
  let entries := (segs.filter fun s => s.isEntry).map fun s => s.id
  bfsReachable segs (bfsFuel segs) entries []

/-- `count_dead_ends` (lines 139-158): returns
(interior dead ends, boundary dead ends). -/
def countDeadEnds (segs : List VSeg) (nodes : List VNode) : ℕ × ℕ :=
  segs.foldl
    (fun acc s =>
      if s.successors.length = 0 then
        let boundary :=
          ((nodes.reverse.find? fun n => n.id = s.endNodeId).map
            fun n => n.isBoundary).getD false
        if boundary then (acc.1, acc.2 + 1) else (acc.1 + 1, acc.2)
      else acc)
    (0, 0)

/-- The largest-component fraction (line 199), with the explicit
empty-collection guard `... if segments else 0`. -/
def largestFrac (segs : List VSeg) : ℚ :=
  let components := findConnectedComponents segs
  let largest := (components.head?.map fun c => c.length).getD 0
  if segs.isEmpty then 0 else (largest : ℚ) / segs.length

/-- The entry-reachability fraction (line 211), with its guard. -/
def reachFrac (segs : List VSeg) : ℚ :=
  if segs.isEmpty then 0 else ((findReachableFromEntries segs).length : ℚ) / segs.length

/-- The interior-dead-end fraction (line 218), with its guard. -/
def interiorDeadFrac (segs : List VSeg) (nodes : List VNode) : ℚ :=
  if segs.isEmpty then 0 else ((countDeadEnds segs nodes).1 : ℚ) / segs.length

/-- Average successors / predecessors (`compute_statistics`, lines 161-173),
with their guards. -/
def avgSuccessorsOf (segs : List VSeg) : ℚ :=
  if segs.isEmpty then 0
  else ((segs.map fun s => s.successors.length).sum : ℚ) / segs.length

def avgPredecessorsOf (segs : List VSeg) : ℚ :=
  if segs.isEmpty then 0
  else ((segs.map fun s => s.predecessors.length).sum : ℚ) / segs.length

/-- A validation-failure entry.  The script builds one formatted message
string per violated threshold (lines 232-247); only the identity of the
violated threshold is modelled. -/
inductive ThresholdFailure where
  | largestComponent
  | interiorDeadEnd
  | entryReachability
deriving DecidableEq

/-- The `ValidationReport` record (lines 49-65 and 251-268).  Percentages
are stored rounded to two decimals as in the source. -/
structure ValidationReport where
  totalSegments : ℕ
  totalNodes : ℕ
  componentCount : ℕ
  largestComponentSize : ℕ
  largestComponentPct : ℚ
  reachableFromEntries : ℕ
  reachableFromEntriesPct : ℚ
  interiorDeadEnds : ℕ
  interiorDeadEndPct : ℚ
  boundaryDeadEnds : ℕ
  entryPointCount : ℕ
  majorSegmentCount : ℕ
  avgSuccessors : ℚ
  avgPredecessors : ℚ
  passed : Bool
  failures : List ThresholdFailure
deriving DecidableEq

/-- The threshold checks of `validate_graph` (lines 232-249), in source
order. -/
def validationFailures (segs : List VSeg) (nodes : List VNode) : List ThresholdFailure :=
  (if largestFrac segs < LARGEST_COMPONENT_THRESHOLD then
    [ThresholdFailure.largestComponent] else []) ++
  (if INTERIOR_DEAD_END_THRESHOLD < interiorDeadFrac segs nodes then
    [ThresholdFailure.interiorDeadEnd] else []) ++
  (if reachFrac segs < ENTRY_REACHABILITY_THRESHOLD then
    [ThresholdFailure.entryReachability] else [])

/-- `validate_graph` (lines 180-270), on the already-loaded segment and node
collections (file loading is out of scope). -/
def validateGraph (segs : List VSeg) (nodes : List VNode) : ValidationReport :=
  let components := findConnectedComponents segs
  let failures := validationFailures segs nodes
  { totalSegments := segs.length
    totalNodes := nodes.length
    componentCount := components.length
    largestComponentSize := (components.head?.map fun c => c.length).getD 0
    largestComponentPct := roundHalfEven2 (largestFrac segs * 100)
    reachableFromEntries := (findReachableFromEntries segs).length
    reachableFromEntriesPct := roundHalfEven2 (reachFrac segs * 100)
    interiorDeadEnds := (countDeadEnds segs nodes).1
    interiorDeadEndPct := roundHalfEven2 (interiorDeadFrac segs nodes * 100)
    boundaryDeadEnds := (countDeadEnds segs nodes).2
    entryPointCount := (segs.filter fun s => s.isEntry).length
    majorSegmentCount := (segs.filter fun s => s.isMajor).length
    avgSuccessors := roundHalfEven2 (avgSuccessorsOf segs)
    avgPredecessors := roundHalfEven2 (avgPredecessorsOf segs)
    passed := decide (failures.length = 0)
    failures := failures }

/-- `main` (lines 273-307, `sys.exit(main())`): exit status 0 when the
report passed, 1 otherwise. -/
def validatorExitCode (segs : List VSeg) (nodes : List VNode) : ℕ :=
  if (validateGraph segs nodes).passed then 0 else 1

/- ================= Proof-side predicates and helpers ================= -/

/-- The parent map moves only within `0..n-1` and fixes everything outside. -/
def UFClosed (n : ℕ) (p : ℕ → ℕ) : Prop :=
  ∀ x, (x < n → p x < n) ∧ (n ≤ x → p x = x)

/-- Rank strictly increases along proper parent links (the union-by-rank
forest invariant; it bounds every parent chain by `n`). -/
def RankUp (n : ℕ) (p rk : ℕ → ℕ) : Prop :=
  ∀ x, x < n → p x ≠ x → rk x < rk (p x)

/-- Wellformedness of a union-find state. -/
def UFInv (n : ℕ) (uf : UF) : Prop :=
  UFClosed n uf.parent ∧ RankUp n uf.parent uf.rank

/-- The parent chain from `x` reaches a fixpoint within `fuel` steps. -/
def FixWithin (p : ℕ → ℕ) (x fuel : ℕ) : Prop :=
  ∃ k ≤ fuel, p (p^[k] x) = p^[k] x

/-- `r` is the root of `x`'s parent chain. -/
def IsRootOf (p : ℕ → ℕ) (x r : ℕ) : Prop :=
  ∃ k, p^[k] x = r ∧ p r = r

/-- `q` is a root-preserving rewrite of `p`: every entry is unchanged or
redirected to the chain's root. -/
def RootPres (p q : ℕ → ℕ) : Prop :=
  ∀ z, q z = p z ∨ IsRootOf p z (q z)

/-- The local variables of `UnionFind.union`: parent map after the first
compressing find. -/
def ufP1 (n : ℕ) (uf : UF) (x : ℕ) : ℕ → ℕ := (findCompress n uf.parent x).2

/-- `union`'s local `root_x`. -/
def ufRx (n : ℕ) (uf : UF) (x : ℕ) : ℕ := (findCompress n uf.parent x).1

/-- Parent map after the second compressing find of `union`. -/
def ufP2 (n : ℕ) (uf : UF) (x y : ℕ) : ℕ → ℕ := (findCompress n (ufP1 n uf x) y).2

/-- `union`'s local `root_y`. -/
def ufRy (n : ℕ) (uf : UF) (x y : ℕ) : ℕ := (findCompress n (ufP1 n uf x) y).1

/-- The root that survives the by-rank link (`union`'s swap). -/
def ufRx' (n : ℕ) (uf : UF) (x y : ℕ) : ℕ :=
  if uf.rank (ufRx n uf x) < uf.rank (ufRy n uf x y) then ufRy n uf x y else ufRx n uf x

/-- The root that is redirected by the by-rank link. -/
def ufRy' (n : ℕ) (uf : UF) (x y : ℕ) : ℕ :=
  if uf.rank (ufRx n uf x) < uf.rank (ufRy n uf x y) then ufRx n uf x else ufRy n uf x y

/-- Numeric value of a decimal digit character. -/
def digitVal (c : Char) : ℕ := c.toNat - 48

/-- Decimal value of a digit string (the left fold a reader of the decimal
representation performs). -/
def valDigits (l : List Char) : ℕ := l.foldl (fun a c => 10 * a + digitVal c) 0

/-- Decimal-digit accumulator: `pushDigits a n` is `a` followed by the
decimal digits of `n` (used to state the `Nat.toDigits` roundtrip). -/
def pushDigits (a n : ℕ) : ℕ :=
  if n < 10 then 10 * a + n else 10 * pushDigits a (n / 10) + n % 10
termination_by n
decreasing_by
  exact Nat.div_lt_self (by omega) (by norm_num)

/-- Fold step reading decimal digits back off a character list. -/
def digitStep (a : ℕ) (c : Char) : ℕ := 10 * a + (c.toNat - 48)

/- =====================================================================
   Theorems
   ===================================================================== -/

/-- Claim C6: `isMajor` is a plain OR of the three independent strict
threshold predicates (max spawn rate > 0.30, speedRatio > 0.50,
lengthMeters > 150), and the scenario `lengthMeters = 200`,
`speedRatio = 0.10`, max spawn rate `0.05` classifies major solely because
of the length predicate. -/
theorem isMajor_or_of_thresholds (rates : List ℚ) (sr lm m : ℚ)
    (h : rates.max? = some m) :
    (isMajorOf rates sr lm =
      some (decide (SPAWN_RATE_THRESHOLD < m) ||
            decide (SPEED_RATIO_THRESHOLD < sr) ||
            decide (LENGTH_THRESHOLD < lm))) ∧
    (isMajorOf rates sr lm = some true ↔
      (SPAWN_RATE_THRESHOLD < m ∨ SPEED_RATIO_THRESHOLD < sr ∨ LENGTH_THRESHOLD < lm)) ∧
    (isMajorOf [1/20] (1/10) 200 = some true ∧
      ¬ SPAWN_RATE_THRESHOLD < (1/20 : ℚ) ∧
      ¬ SPEED_RATIO_THRESHOLD < (1/10 : ℚ) ∧
      LENGTH_THRESHOLD < (200 : ℚ)) := by
  refine ⟨?_, ?_, ?_⟩
  · simp [isMajorOf, h]
  · simp [isMajorOf, h, Bool.or_eq_true, decide_eq_true_eq, or_assoc]
  · refine ⟨?_, by norm_num [SPAWN_RATE_THRESHOLD], by norm_num [SPEED_RATIO_THRESHOLD],
      by norm_num [LENGTH_THRESHOLD]⟩
    simp only [isMajorOf, List.max?, List.foldl, Option.map_some]
    norm_num [SPAWN_RATE_THRESHOLD, SPEED_RATIO_THRESHOLD, LENGTH_THRESHOLD]

/-- Witness for `isMajor_or_of_thresholds` at a concrete spawn-rate list. -/
theorem isMajor_or_of_thresholds_witness :
    ([(1:ℚ)/20].max? = some (1/20)) ∧
    isMajorOf [(1:ℚ)/20] (1/10) 200 =
      some (decide (SPAWN_RATE_THRESHOLD < (1/20 : ℚ)) ||
            decide (SPEED_RATIO_THRESHOLD < (1/10 : ℚ)) ||
            decide (LENGTH_THRESHOLD < (200 : ℚ))) :=
  ⟨rfl, (isMajor_or_of_thresholds [1/20] (1/10) 200 (1/20) rfl).1⟩

/-- Claim C3: the validator passes exactly when all three thresholds are
met, the failures list contains precisely the violated thresholds, and the
process exit status is 0 on pass and 1 (nonzero) on fail. -/
theorem validator_pass_iff_thresholds (segs : List VSeg) (nodes : List VNode) :
    ((validateGraph segs nodes).passed = true ↔
      (LARGEST_COMPONENT_THRESHOLD ≤ largestFrac segs ∧
       ENTRY_REACHABILITY_THRESHOLD ≤ reachFrac segs ∧
       interiorDeadFrac segs nodes ≤ INTERIOR_DEAD_END_THRESHOLD)) ∧
    (ThresholdFailure.largestComponent ∈ (validateGraph segs nodes).failures ↔
      largestFrac segs < LARGEST_COMPONENT_THRESHOLD) ∧
    (ThresholdFailure.interiorDeadEnd ∈ (validateGraph segs nodes).failures ↔
      INTERIOR_DEAD_END_THRESHOLD < interiorDeadFrac segs nodes) ∧
    (ThresholdFailure.entryReachability ∈ (validateGraph segs nodes).failures ↔
      reachFrac segs < ENTRY_REACHABILITY_THRESHOLD) ∧
    ((validateGraph segs nodes).passed = true → validatorExitCode segs nodes = 0) ∧
    ((validateGraph segs nodes).passed = false → validatorExitCode segs nodes = 1) := by
  have hfail : (validateGraph segs nodes).failures = validationFailures segs nodes := rfl
  have hpass : (validateGraph segs nodes).passed =
      decide ((validationFailures segs nodes).length = 0) := rfl
  refine ⟨?_, ?_, ?_, ?_, ?_, ?_⟩
  · rw [hpass]
    unfold validationFailures
    split_ifs with h1 h2 h3 <;> simp_all [not_lt, le_of_not_lt]
  · rw [hfail]; unfold validationFailures
    split_ifs <;> simp_all
  · rw [hfail]; unfold validationFailures
    split_ifs <;> simp_all
  · rw [hfail]; unfold validationFailures
    split_ifs <;> simp_all
  · intro h; unfold validatorExitCode; rw [h]; rfl
  · intro h; unfold validatorExitCode; rw [h]; rfl

/-- Claim C10: on an empty segment collection every fraction the validator
computes is guarded to 0, and the validator produces a complete report that
fails exactly the largest-component and entry-reachability thresholds. -/
theorem validator_empty_graph_report :
    largestFrac [] = 0 ∧ reachFrac [] = 0 ∧ interiorDeadFrac [] [] = 0 ∧
    avgSuccessorsOf [] = 0 ∧ avgPredecessorsOf [] = 0 ∧
    validateGraph [] [] =
      { totalSegments := 0
        totalNodes := 0
        componentCount := 0
        largestComponentSize := 0
        largestComponentPct := 0
        reachableFromEntries := 0
        reachableFromEntriesPct := 0
        interiorDeadEnds := 0
        interiorDeadEndPct := 0
        boundaryDeadEnds := 0
        entryPointCount := 0
        majorSegmentCount := 0
        avgSuccessors := 0
        avgPredecessors := 0
        passed := false
        failures := [ThresholdFailure.largestComponent,
                     ThresholdFailure.entryReachability] } := by
  have hl : largestFrac [] = 0 := by simp [largestFrac, findConnectedComponents]
  have hr : reachFrac [] = 0 := by simp [reachFrac]
  have hd : interiorDeadFrac [] [] = 0 := by simp [interiorDeadFrac]
  have hs : avgSuccessorsOf [] = 0 := by simp [avgSuccessorsOf]
  have hp : avgPredecessorsOf [] = 0 := by simp [avgPredecessorsOf]
  have hround : roundHalfEven2 0 = 0 := by norm_num [roundHalfEven2]
  have hfails : validationFailures [] [] =
      [ThresholdFailure.largestComponent, ThresholdFailure.entryReachability] := by
    rw [validationFailures, hl, hd, hr]
    norm_num [LARGEST_COMPONENT_THRESHOLD, INTERIOR_DEAD_END_THRESHOLD,
      ENTRY_REACHABILITY_THRESHOLD]
  refine ⟨hl, hr, hd, hs, hp, ?_⟩
  rw [validateGraph]
  simp only [hl, hr, hd, hs, hp, hfails]
  norm_num [hround, findConnectedComponents, findReachableFromEntries, bfsReachable,
    countDeadEnds]

/-- Elements selected by the successor loop: characterization of membership
when the candidate's segment record is known. -/
theorem mem_selectSuccessors (s : HSeg) (segMap : String → Option HSeg)
    (cid : String) (c : HSeg) (hc : segMap cid = some c) :
    ∀ (out succs : List String), selectSuccessors s segMap out = some succs →
      (cid ∈ succs ↔ cid ∈ out ∧ cid ≠ s.id ∧
        angle_difference s.endHeadingDeg c.startHeadingDeg ≤ ANGLE_THRESHOLD) := by
  intro out
  induction out with
  | nil =>
      intro succs h
      simp only [selectSuccessors, Option.some.injEq] at h
      simp [← h]
  | cons a rest ih =>
      intro succs h
      by_cases ha : a = s.id
      · rw [selectSuccessors, if_pos ha] at h
        rcases eq_or_ne cid a with rfl | hne
        · rw [ih succs h]
          subst ha
          simp
        · rw [ih succs h]
          simp [List.mem_cons, hne]
      · rw [selectSuccessors, if_neg ha] at h
        cases hma : segMap a with
        | none => rw [hma] at h; exact absurd h (by simp)
        | some ca =>
            rw [hma] at h
            cases htail : selectSuccessors s segMap rest with
            | none => rw [htail] at h; exact absurd h (by simp)
            | some tail =>
                rw [htail] at h
                simp only [Option.map_some', Option.some.injEq] at h
                rcases eq_or_ne cid a with rfl | hne
                · have hca : ca = c := by rw [hma] at hc; exact (Option.some.injEq _ _).mp hc
                  subst hca
                  by_cases hang :
                      angle_difference s.endHeadingDeg ca.startHeadingDeg ≤ ANGLE_THRESHOLD
                  · rw [if_pos hang] at h
                    simp [← h, ha, hang]
                  · rw [if_neg hang] at h
                    rw [← h, ih tail htail]
                    simp [hang]
                · by_cases hang :
                      angle_difference s.endHeadingDeg ca.startHeadingDeg ≤ ANGLE_THRESHOLD
                  · rw [if_pos hang] at h
                    rw [← h]
                    simp only [List.mem_cons, hne, false_or]
                    exact ih tail htail
                  · rw [if_neg hang] at h
                    rw [← h, ih tail htail]
                    simp [hne]

/-- Claim C5: a candidate starting at the segment's end node is linked as a
successor exactly when it is a distinct segment whose start heading is
within the 60° threshold of the segment's end heading; the 0°/60° boundary
pair is linked while 0°/60.01° is not. -/
theorem successor_iff_within_angle_threshold (s : HSeg) (segMap : String → Option HSeg)
    (out succs : List String) (cid : String) (c : HSeg)
    (hsel : selectSuccessors s segMap out = some succs)
    (hc : segMap cid = some c) :
    (cid ∈ succs ↔ cid ∈ out ∧ cid ≠ s.id ∧
      angle_difference s.endHeadingDeg c.startHeadingDeg ≤ ANGLE_THRESHOLD) ∧
    angle_difference 0 60 ≤ ANGLE_THRESHOLD ∧
    ¬ angle_difference 0 (6001/100) ≤ ANGLE_THRESHOLD := by
  refine ⟨mem_selectSuccessors s segMap cid c hc out succs hsel, ?_, ?_⟩
  · norm_num [angle_difference, ANGLE_THRESHOLD]
  · have habs : |(6001:ℚ)/100| = 6001/100 := abs_of_nonneg (by norm_num)
    norm_num [angle_difference, ANGLE_THRESHOLD, habs]

/-- Witness for `successor_iff_within_angle_threshold`: a single candidate at
heading 60° against an end heading of 0° is linked. -/
theorem successor_iff_within_angle_threshold_witness :
    selectSuccessors (⟨⟨"s", [], 0, 0, []⟩, 0, 0⟩ : HSeg)
      (fun cid => if cid = "c" then some (⟨⟨"c", [], 0, 0, []⟩, 60, 0⟩ : HSeg) else none)
      ["c"] = some ["c"] ∧
    (("c" : String) ∈ (["c"] : List String) ↔
      ("c" : String) ∈ (["c"] : List String) ∧ ("c" : String) ≠ "s" ∧
      angle_difference 0 60 ≤ ANGLE_THRESHOLD) := by
  have hsel : selectSuccessors (⟨⟨"s", [], 0, 0, []⟩, 0, 0⟩ : HSeg)
      (fun cid => if cid = "c" then some (⟨⟨"c", [], 0, 0, []⟩, 60, 0⟩ : HSeg) else none)
      ["c"] = some ["c"] := by
    norm_num [selectSuccessors, angle_difference, ANGLE_THRESHOLD]
    decide
  refine ⟨hsel, ?_⟩
  exact (successor_iff_within_angle_threshold
    (⟨⟨"s", [], 0, 0, []⟩, 0, 0⟩ : HSeg)
    (fun cid => if cid = "c" then some (⟨⟨"c", [], 0, 0, []⟩, 60, 0⟩ : HSeg) else none)
    ["c"] ["c"] "c" (⟨⟨"c", [], 0, 0, []⟩, 60, 0⟩ : HSeg) hsel rfl).1

/-- `listMapM` succeeds exactly elementwise. -/
theorem listMapM_eq_some {A B : Type} {f : A → Option B} :
    ∀ {l : List A} {res : List B}, listMapM f l = some res →
      List.Forall₂ (fun a b => f a = some b) l res := by
  intro l
  induction l with
  | nil =>
      intro res h
      have h2 : some ([] : List B) = some res := h
      obtain rfl := (Option.some.injEq _ _).mp h2
      exact List.Forall₂.nil
  | cons a t ih =>
      intro res h
      rw [listMapM] at h
      simp only [Option.bind_eq_bind, Option.bind_eq_some, Option.pure_def,
        Option.some.injEq] at h
      obtain ⟨b, hfa, bs, ht, hres⟩ := h
      exact hres ▸ List.Forall₂.cons hfa (ih ht)

/-- From a `Forall₂` whose relation recovers the left element, the right
list projects back onto the left one. -/
theorem forall₂_map_fst {A B : Type} {R : A → (A × B) → Prop}
    (hR : ∀ a b, R a b → b.1 = a) :
    ∀ {l : List A} {ss : List (A × B)}, List.Forall₂ R l ss →
      ss.map Prod.fst = l := by
  intro l ss h
  induction h with
  | nil => rfl
  | @cons a b l1 l2 ha ht ih =>
      simp only [List.map_cons, ih, List.cons.injEq, and_true]
      exact hR a b ha

/-- Right-to-left projection of `Forall₂` membership. -/
theorem forall₂_mem_right {A B : Type} {R : A → B → Prop} :
    ∀ {l : List A} {l2 : List B}, List.Forall₂ R l l2 →
      ∀ b ∈ l2, ∃ a ∈ l, R a b := by
  intro l l2 h
  induction h with
  | nil => intro b hb; exact absurd hb (by simp)
  | @cons a b l1 l2 ha ht ih =>
      intro c hc
      rcases List.mem_cons.mp hc with rfl | hmem
      · exact ⟨a, List.mem_cons_self a _, ha⟩
      · obtain ⟨a2, ha2, hR⟩ := ih c hmem
        exact ⟨a2, List.mem_cons_of_mem a ha2, hR⟩

/-- The successor pass keeps the segments themselves (first components). -/
theorem successorsPass_fst {nodes : List RoadNode} {emap : List (String × ℕ)}
    {hsegs : List HSeg} {ss : List (HSeg × List String)}
    (h : successorsPass nodes emap hsegs = some ss) :
    ss.map Prod.fst = hsegs := by
  refine forall₂_map_fst ?_ (listMapM_eq_some h)
  intro a b hab
  simp only [Option.bind_eq_bind, Option.bind_eq_some, Option.pure_def,
    Option.some.injEq] at hab
  obtain ⟨k, -, nd, -, succs, -, hb⟩ := hab
  exact congrArg Prod.fst hb.symm

/-- Every pair produced by the successor pass comes from a successful
`selectSuccessors` run over the segment's own map. -/
theorem successorsPass_select {nodes : List RoadNode} {emap : List (String × ℕ)}
    {hsegs : List HSeg} {ss : List (HSeg × List String)}
    (h : successorsPass nodes emap hsegs = some ss) :
    ∀ sp ∈ ss, ∃ out, selectSuccessors sp.1 (segMapLookup hsegs) out = some sp.2 := by
  intro sp hsp
  obtain ⟨a, -, hab⟩ := forall₂_mem_right (listMapM_eq_some h) sp hsp
  simp only [Option.bind_eq_bind, Option.bind_eq_some, Option.pure_def,
    Option.some.injEq] at hab
  obtain ⟨k, -, nd, -, succs, hsel, hb⟩ := hab
  refine ⟨nd.outgoing, ?_⟩
  rw [← hb]
  exact hsel

/-- Every id selected as a successor resolves in `seg_map`. -/
theorem selectSuccessors_resolves (s : HSeg) (segMap : String → Option HSeg) :
    ∀ (out succs : List String), selectSuccessors s segMap out = some succs →
      ∀ c ∈ succs, ∃ cc, segMap c = some cc := by
  intro out
  induction out with
  | nil =>
      intro succs h c hc
      simp only [selectSuccessors, Option.some.injEq] at h
      rw [← h] at hc
      exact absurd hc (by simp)
  | cons a rest ih =>
      intro succs h c hc
      by_cases ha : a = s.id
      · rw [selectSuccessors, if_pos ha] at h
        exact ih succs h c hc
      · rw [selectSuccessors, if_neg ha] at h
        cases hma : segMap a with
        | none => rw [hma] at h; exact absurd h (by simp)
        | some ca =>
            rw [hma] at h
            cases htail : selectSuccessors s segMap rest with
            | none => rw [htail] at h; exact absurd h (by simp)
            | some tail =>
                rw [htail] at h
                simp only [Option.map_some', Option.some.injEq] at h
                have hct : c ∈ tail → ∃ cc, segMap c = some cc := ih tail htail c
                by_cases hang :
                    angle_difference s.endHeadingDeg ca.startHeadingDeg ≤ ANGLE_THRESHOLD
                · rw [if_pos hang] at h
                  rw [← h] at hc
                  rcases List.mem_cons.mp hc with rfl | hmem
                  · exact ⟨ca, hma⟩
                  · exact hct hmem
                · rw [if_neg hang] at h
                  rw [← h] at hc
                  exact hct hc

/-- A successful `seg_map` lookup means the id belongs to the segment list. -/
theorem segMapLookup_mem {hsegs : List HSeg} {cid : String} {cc : HSeg}
    (h : segMapLookup hsegs cid = some cc) : cid ∈ hsegs.map fun s => s.id := by
  have hp := List.find?_some h
  have hm : cc ∈ hsegs.reverse := List.mem_of_find?_eq_some h
  have hid : cc.id = cid := by simpa using hp
  rw [← hid]
  exact List.mem_map_of_mem _ (List.mem_reverse.mp hm)

/-- Sums of pointwise sums split. -/
theorem sum_map_add {A : Type} (l : List A) (f g : A → ℕ) :
    (l.map fun x => f x + g x).sum = (l.map f).sum + (l.map g).sum := by
  induction l with
  | nil => rfl
  | cons a t ih =>
      simp [ih]
      omega

/-- Summing an indicator over a list counts occurrences. -/
theorem sum_map_ite_count {A : Type} [DecidableEq A] (a : A) (l : List A) :
    (l.map fun b => if a = b then (1:ℕ) else 0).sum = l.count a := by
  induction l with
  | nil => rfl
  | cons b t ih =>
      by_cases hab : a = b
      · subst hab
        simp [List.count_cons, ih]
        omega
      · have hba : (b == a) = false := by
          simp only [beq_eq_false_iff_ne, ne_eq]
          exact fun h => hab h.symm
        simp [List.count_cons, ih, hab, hba]

/-- Double list sums commute. -/
theorem sum_map_swap {A B : Type} (l1 : List A) (l2 : List B) (f : A → B → ℕ) :
    (l1.map fun a => (l2.map (f a)).sum).sum =
      (l2.map fun b => (l1.map fun a => f a b).sum).sum := by
  induction l1 with
  | nil => simp
  | cons a t ih =>
      simp only [List.map_cons, List.sum_cons, ih]
      rw [← sum_map_add]

/-- Counting pairs two ways. -/
theorem sum_count_comm {A : Type} [DecidableEq A] (l1 l2 : List A) :
    (l1.map fun a => l2.count a).sum = (l2.map fun b => l1.count b).sum := by
  induction l1 with
  | nil => simp
  | cons a t ih =>
      simp only [List.map_cons, List.sum_cons, ih]
      have heach : (l2.map fun b => (a :: t).count b).sum =
          (l2.map fun b => t.count b + if a = b then 1 else 0).sum := by
        congr 1
        refine List.map_congr_left fun b _ => ?_
        rw [List.count_cons]
        simp [beq_iff_eq]
      rw [heach, sum_map_add, sum_map_ite_count]
      omega

/-- Membership in the predecessor list built by the third pass. -/
theorem mem_predecessorsOf (ss : List (HSeg × List String)) (tid sid : String) :
    sid ∈ predecessorsOf ss tid ↔ ∃ sp ∈ ss, sp.1.id = sid ∧ tid ∈ sp.2 := by
  constructor
  · intro h
    simp only [predecessorsOf, List.mem_flatMap, List.mem_map, List.mem_filter,
      decide_eq_true_eq] at h
    obtain ⟨sp, hsp, c, ⟨hc, hceq⟩, hid⟩ := h
    exact ⟨sp, hsp, hid, hceq ▸ hc⟩
  · rintro ⟨sp, hsp, hid, htid⟩
    simp only [predecessorsOf, List.mem_flatMap, List.mem_map, List.mem_filter,
      decide_eq_true_eq]
    exact ⟨sp, hsp, tid, ⟨htid, rfl⟩, hid⟩

/-- The length of a predecessor list counts successor occurrences. -/
theorem length_predecessorsOf (ss : List (HSeg × List String)) (tid : String) :
    (predecessorsOf ss tid).length = (ss.map fun sp2 => sp2.2.count tid).sum := by
  rw [predecessorsOf, List.length_flatMap]
  congr 1
  refine List.map_congr_left fun sp _ => ?_
  simp only [Function.comp_apply, List.length_map, ← List.countP_eq_length_filter,
    List.count]
  refine List.countP_congr fun c _ => ?_
  by_cases h : c = tid <;> simp [h]

/-- Conservation of link counts: when successor ids stay inside the (nodup)
id set, the total predecessor count equals the total successor count. -/
theorem preds_total_eq_succs_total (ss : List (HSeg × List String))
    (hnd : (ss.map fun sp => sp.1.id).Nodup)
    (hsub : ∀ sp ∈ ss, ∀ c ∈ sp.2, c ∈ ss.map fun sp2 => sp2.1.id) :
    (ss.map fun sp => (predecessorsOf ss sp.1.id).length).sum =
      (ss.map fun sp => sp.2.length).sum := by
  have h1 : (ss.map fun sp => (predecessorsOf ss sp.1.id).length) =
      ss.map fun sp => (ss.map fun sp2 => sp2.2.count sp.1.id).sum :=
    List.map_congr_left fun sp _ => length_predecessorsOf ss sp.1.id
  rw [h1, sum_map_swap ss ss fun sp sp2 => sp2.2.count sp.1.id]
  congr 1
  refine List.map_congr_left fun sp2 hsp2 => ?_
  have h2 : (ss.map fun sp => sp2.2.count sp.1.id) =
      (ss.map fun sp => sp.1.id).map fun tid => sp2.2.count tid := by
    rw [List.map_map]
    rfl
  rw [h2, sum_count_comm]
  have h3 : (sp2.2.map fun c => (ss.map fun sp => sp.1.id).count c) =
      sp2.2.map fun _ => 1 :=
    List.map_congr_left fun c hc =>
      List.count_eq_one_of_mem hnd (hsub sp2 hsp2 c hc)
  rw [h3]
  simp

/-- Claim C1: after the adjacency pass, predecessors are the exact inverse
of successors — mutual membership holds in both directions, every
successor/predecessor id is the id of a segment in the list, and the total
predecessor-link count equals the total successor-link count. -/
theorem adjacency_predecessors_inverse (nodes : List RoadNode)
    (emap : List (String × ℕ)) (hsegs : List HSeg) (asegs : List ASeg)
    (hnd : (hsegs.map fun s => s.id).Nodup)
    (hadj : buildAdjacency nodes emap hsegs = some asegs) :
    (∀ S ∈ asegs, ∀ C ∈ asegs, (C.id ∈ S.successors ↔ S.id ∈ C.predecessors)) ∧
    (∀ S ∈ asegs, ∀ cid ∈ S.successors, ∃ C ∈ asegs, C.id = cid) ∧
    (∀ S ∈ asegs, ∀ pid ∈ S.predecessors, ∃ P ∈ asegs, P.id = pid) ∧
    (asegs.map fun S => S.predecessors.length).sum =
      (asegs.map fun S => S.successors.length).sum := by
  rw [buildAdjacency] at hadj
  cases hsp : successorsPass nodes emap hsegs with
  | none => rw [hsp] at hadj; exact absurd hadj (by simp)
  | some ss =>
      rw [hsp] at hadj
      simp only [Option.map_some', Option.some.injEq] at hadj
      subst hadj
      have hfst : ss.map Prod.fst = hsegs := successorsPass_fst hsp
      have hids : (ss.map fun sp => sp.1.id) = hsegs.map fun s => s.id := by
        rw [← hfst, List.map_map]
        rfl
      have hndss : (ss.map fun sp => sp.1.id).Nodup := by rw [hids]; exact hnd
      have hsub : ∀ sp ∈ ss, ∀ c ∈ sp.2, c ∈ ss.map fun sp2 => sp2.1.id := by
        intro sp hsp2 c hc
        obtain ⟨out, hsel⟩ := successorsPass_select hsp sp hsp2
        obtain ⟨cc, hcc⟩ := selectSuccessors_resolves sp.1 (segMapLookup hsegs)
          out sp.2 hsel c hc
        rw [hids]
        exact segMapLookup_mem hcc
      refine ⟨?_, ?_, ?_, ?_⟩
      · intro S hS C hC
        obtain ⟨spS, hspS, rfl⟩ := List.mem_map.mp hS
        obtain ⟨spC, hspC, rfl⟩ := List.mem_map.mp hC
        show spC.1.id ∈ spS.2 ↔ spS.1.id ∈ predecessorsOf ss spC.1.id
        rw [mem_predecessorsOf]
        constructor
        · intro h
          exact ⟨spS, hspS, rfl, h⟩
        · rintro ⟨sp, hsp2, hid, htid⟩
          have hspeq : sp = spS :=
            List.inj_on_of_nodup_map hndss hsp2 hspS hid
          rwa [hspeq] at htid
      · intro S hS cid hcid
        obtain ⟨spS, hspS, rfl⟩ := List.mem_map.mp hS
        have hmem : cid ∈ ss.map fun sp2 => sp2.1.id := hsub spS hspS cid hcid
        obtain ⟨sp, hsp2, hid⟩ := List.mem_map.mp hmem
        exact ⟨_, List.mem_map_of_mem _ hsp2, hid⟩
      · intro S hS pid hpid
        obtain ⟨spS, hspS, rfl⟩ := List.mem_map.mp hS
        have : pid ∈ predecessorsOf ss spS.1.id := hpid
        rw [mem_predecessorsOf] at this
        obtain ⟨sp, hsp2, hid, -⟩ := this
        exact ⟨_, List.mem_map_of_mem _ hsp2, hid⟩
      · have hpl : ((ss.map fun sp =>
            (⟨sp.1, sp.2, predecessorsOf ss sp.1.id⟩ : ASeg)).map
              fun S => S.predecessors.length) =
            ss.map fun sp => (predecessorsOf ss sp.1.id).length := by
          rw [List.map_map]
          rfl
        have hsl : ((ss.map fun sp =>
            (⟨sp.1, sp.2, predecessorsOf ss sp.1.id⟩ : ASeg)).map
              fun S => S.successors.length) =
            ss.map fun sp => sp.2.length := by
          rw [List.map_map]
          rfl
        rw [hpl, hsl]
        exact preds_total_eq_succs_total ss hndss hsub

/-- Witness for `adjacency_predecessors_inverse` on a one-segment graph. -/
theorem adjacency_predecessors_inverse_witness :
    (([⟨⟨"a", [], 0, 0, []⟩, 0, 0⟩] : List HSeg).map fun s => s.id).Nodup ∧
    buildAdjacency [⟨0, (0, 0), ["a"], ["a"], false⟩] [("a", 0)]
      [⟨⟨"a", [], 0, 0, []⟩, 0, 0⟩] =
      some [⟨⟨⟨"a", [], 0, 0, []⟩, 0, 0⟩, [], []⟩] ∧
    (([⟨⟨⟨"a", [], 0, 0, []⟩, 0, 0⟩, [], []⟩] : List ASeg).map
        fun S => S.predecessors.length).sum =
      (([⟨⟨⟨"a", [], 0, 0, []⟩, 0, 0⟩, [], []⟩] : List ASeg).map
        fun S => S.successors.length).sum := by
  have hnd : (([⟨⟨"a", [], 0, 0, []⟩, 0, 0⟩] : List HSeg).map fun s => s.id).Nodup := by
    simp
  have hadj : buildAdjacency [⟨0, (0, 0), ["a"], ["a"], false⟩] [("a", 0)]
      [⟨⟨"a", [], 0, 0, []⟩, 0, 0⟩] =
      some [⟨⟨⟨"a", [], 0, 0, []⟩, 0, 0⟩, [], []⟩] := by
    rfl
  exact ⟨hnd, hadj,
    (adjacency_predecessors_inverse [⟨0, (0, 0), ["a"], ["a"], false⟩] [("a", 0)]
      [⟨⟨"a", [], 0, 0, []⟩, 0, 0⟩] [⟨⟨⟨"a", [], 0, 0, []⟩, 0, 0⟩, [], []⟩]
      hnd hadj).2.2.2⟩

/-- Witness for `validator_pass_iff_thresholds`: the empty graph fails, and
the theorem turns the failure into exit status 1. -/
theorem validator_pass_iff_thresholds_witness :
    (validateGraph [] []).passed = false ∧ validatorExitCode [] [] = 1 := by
  have hl : largestFrac [] = 0 := by simp [largestFrac, findConnectedComponents]
  have hr : reachFrac [] = 0 := by simp [reachFrac]
  have hd : interiorDeadFrac [] [] = 0 := by simp [interiorDeadFrac]
  have hfails : validationFailures [] [] =
      [ThresholdFailure.largestComponent, ThresholdFailure.entryReachability] := by
    rw [validationFailures, hl, hd, hr]
    norm_num [LARGEST_COMPONENT_THRESHOLD, INTERIOR_DEAD_END_THRESHOLD,
      ENTRY_REACHABILITY_THRESHOLD]
  have hp : (validateGraph [] []).passed = false := by
    show decide ((validationFailures [] []).length = 0) = false
    rw [hfails]
    rfl
  exact ⟨hp, (validator_pass_iff_thresholds [] []).2.2.2.2.2 hp⟩

/-- Claim C8: in the pipeline output, every node's `isBoundary` flag is the
pure predicate `is_near_boundary` applied to the data bounds (computed once
from all raw points, before clustering) and the node's unrounded centroid
(the spec's node position); the stored position is that centroid rounded to
two decimals.  Nothing downstream of `build_node_set` rewrites the flag. -/
theorem node_isBoundary_pure_function (hf : Point3D → Point3D → ℚ) (segs : List Seg)
    (bounds : Bounds) (eps : List Endpoint) (asegs : List ASeg) (nodes : List RoadNode)
    (hb : computeDataBounds segs = some bounds)
    (hc : collectEndpoints segs = some eps)
    (hp : adjacencyPipeline hf segs = some (asegs, nodes)) :
    ∀ nd ∈ nodes,
      nd.isBoundary = isNearBoundary bounds
        (clusterCentroid eps ((clusterMembersOf eps).getD nd.id [])).1
        (clusterCentroid eps ((clusterMembersOf eps).getD nd.id [])).2 ∧
      nd.position =
        (roundHalfEven2 (clusterCentroid eps ((clusterMembersOf eps).getD nd.id [])).1,
         roundHalfEven2 (clusterCentroid eps ((clusterMembersOf eps).getD nd.id [])).2) := by
  have hnodes : nodes = nodesOf bounds eps := by
    rw [adjacencyPipeline, hb] at hp
    simp only [Option.bind_eq_bind, Option.some_bind] at hp
    rw [buildNodeSet, hc] at hp
    simp only [Option.map_some', Option.some_bind] at hp
    cases hh : headingPass hf segs with
    | none => rw [hh] at hp; exact absurd hp (by simp)
    | some hsegs =>
        rw [hh] at hp
        simp only [Option.some_bind] at hp
        cases ha : buildAdjacency (nodesOf bounds eps) (endNodeWrites eps) hsegs with
        | none => rw [ha] at hp; exact absurd hp (by simp)
        | some asegs2 =>
            rw [ha] at hp
            simp only [Option.some_bind, Option.pure_def, Option.some.injEq] at hp
            exact (congrArg Prod.snd hp).symm
  subst hnodes
  intro nd hnd
  obtain ⟨km, hkm, rfl⟩ := List.mem_map.mp hnd
  have hget : (clusterMembersOf eps).get? km.1 = some km.2 :=
    List.mk_mem_enum_iff_get?.mp (by exact hkm)
  have hgetD : (clusterMembersOf eps).getD km.1 [] = km.2 := by
    simp [List.getD_eq_getElem?_getD, ← List.get?_eq_getElem?, hget]
  refine ⟨?_, ?_⟩
  · show isNearBoundary bounds (clusterCentroid eps km.2).1 (clusterCentroid eps km.2).2 =
      isNearBoundary bounds
        (clusterCentroid eps ((clusterMembersOf eps).getD (mkRoadNode bounds eps km.1 km.2).id [])).1
        (clusterCentroid eps ((clusterMembersOf eps).getD (mkRoadNode bounds eps km.1 km.2).id [])).2
    rw [show (mkRoadNode bounds eps km.1 km.2).id = km.1 from rfl, hgetD]
  · show (roundHalfEven2 (clusterCentroid eps km.2).1, roundHalfEven2 (clusterCentroid eps km.2).2) =
      _
    rw [show (mkRoadNode bounds eps km.1 km.2).id = km.1 from rfl, hgetD]

/-- Witness for `node_isBoundary_pure_function` on a one-segment input. -/
theorem node_isBoundary_pure_function_witness :
    computeDataBounds [⟨"a", [(0,0,0),(0,0,0)], 0, 0, []⟩] = some ⟨0,0,0,0⟩ ∧
    collectEndpoints [⟨"a", [(0,0,0),(0,0,0)], 0, 0, []⟩] =
      some [⟨0,0,"a",true⟩, ⟨0,0,"a",false⟩] ∧
    adjacencyPipeline (fun _ _ => 0) [⟨"a", [(0,0,0),(0,0,0)], 0, 0, []⟩] =
      some ([⟨⟨⟨"a", [(0,0,0),(0,0,0)], 0, 0, []⟩, 0, 0⟩, [], []⟩],
            [⟨0, (0, 0), ["a"], ["a"], true⟩]) ∧
    (∀ nd ∈ [(⟨0, (0, 0), ["a"], ["a"], true⟩ : RoadNode)],
      nd.isBoundary = isNearBoundary ⟨0,0,0,0⟩
        (clusterCentroid [⟨0,0,"a",true⟩, ⟨0,0,"a",false⟩]
          ((clusterMembersOf [⟨0,0,"a",true⟩, ⟨0,0,"a",false⟩]).getD nd.id [])).1
        (clusterCentroid [⟨0,0,"a",true⟩, ⟨0,0,"a",false⟩]
          ((clusterMembersOf [⟨0,0,"a",true⟩, ⟨0,0,"a",false⟩]).getD nd.id [])).2 ∧
      nd.position =
        (roundHalfEven2 (clusterCentroid [⟨0,0,"a",true⟩, ⟨0,0,"a",false⟩]
          ((clusterMembersOf [⟨0,0,"a",true⟩, ⟨0,0,"a",false⟩]).getD nd.id [])).1,
         roundHalfEven2 (clusterCentroid [⟨0,0,"a",true⟩, ⟨0,0,"a",false⟩]
          ((clusterMembersOf [⟨0,0,"a",true⟩, ⟨0,0,"a",false⟩]).getD nd.id [])).2)) := by
  have hb : computeDataBounds [⟨"a", [(0,0,0),(0,0,0)], 0, 0, []⟩] = some ⟨0,0,0,0⟩ := by
    norm_num [computeDataBounds, List.min?, List.max?]
  have hc : collectEndpoints [⟨"a", [(0,0,0),(0,0,0)], 0, 0, []⟩] =
      some [⟨0,0,"a",true⟩, ⟨0,0,"a",false⟩] := by
    norm_num [collectEndpoints, listMapM, segEndpoints]
  have hroots : rootsListOf [⟨0,0,"a",true⟩, ⟨0,0,"a",false⟩] = [0, 0] := by
    norm_num [rootsListOf, computeRoots, clusterUF, allPairs, UF.union, UF.init,
      findCompress, closePair, distSq, epAt, SNAP_RADIUS, List.range, List.range',
      List.foldl]
  have hmem : clusterMembersOf [⟨0,0,"a",true⟩, ⟨0,0,"a",false⟩] = [[0, 1]] := by
    rw [clusterMembersOf]
    simp only [hroots]
    decide
  have hnodes : nodesOf ⟨0,0,0,0⟩ [⟨0,0,"a",true⟩, ⟨0,0,"a",false⟩] =
      [⟨0, (0, 0), ["a"], ["a"], true⟩] := by
    rw [nodesOf, hmem]
    norm_num [mkRoadNode, clusterCentroid, epAt, roundHalfEven2, isNearBoundary,
      BOUNDARY_BUFFER, List.enum]
  have hew : endNodeWrites [⟨0,0,"a",true⟩, ⟨0,0,"a",false⟩] = [("a", 0)] := by
    norm_num [endNodeWrites, hmem, epAt, List.enum]
  have hh : headingPass (fun _ _ => (0:ℚ)) [⟨"a", [(0,0,0),(0,0,0)], 0, 0, []⟩] =
      some [⟨⟨"a", [(0,0,0),(0,0,0)], 0, 0, []⟩, 0, 0⟩] := by
    norm_num [headingPass, listMapM, segHeadings]
  have ha : buildAdjacency [⟨0, (0, 0), ["a"], ["a"], true⟩] [("a", 0)]
      [⟨⟨"a", [(0,0,0),(0,0,0)], 0, 0, []⟩, 0, 0⟩] =
      some [⟨⟨⟨"a", [(0,0,0),(0,0,0)], 0, 0, []⟩, 0, 0⟩, [], []⟩] := rfl
  have hp : adjacencyPipeline (fun _ _ => 0) [⟨"a", [(0,0,0),(0,0,0)], 0, 0, []⟩] =
      some ([⟨⟨⟨"a", [(0,0,0),(0,0,0)], 0, 0, []⟩, 0, 0⟩, [], []⟩],
            [⟨0, (0, 0), ["a"], ["a"], true⟩]) := by
    rw [adjacencyPipeline, hb]
    simp only [Option.bind_eq_bind, Option.some_bind]
    rw [buildNodeSet, hc]
    simp only [Option.map_some', Option.some_bind]
    rw [hnodes, hew, hh]
    simp only [Option.some_bind]
    rw [ha]
    rfl
  exact ⟨hb, hc, hp, node_isBoundary_pure_function (fun _ _ => 0)
    [⟨"a", [(0,0,0),(0,0,0)], 0, 0, []⟩] ⟨0,0,0,0⟩ [⟨0,0,"a",true⟩, ⟨0,0,"a",false⟩]
    [⟨⟨⟨"a", [(0,0,0),(0,0,0)], 0, 0, []⟩, 0, 0⟩, [], []⟩]
    [⟨0, (0, 0), ["a"], ["a"], true⟩] hb hc hp⟩

/-- A raising element anywhere in the traversed list aborts `listMapM`. -/
theorem listMapM_none {A B : Type} {f : A → Option B} :
    ∀ {l : List A} {a : A}, a ∈ l → f a = none → listMapM f l = none := by
  intro l
  induction l with
  | nil => intro a ha _; exact absurd ha (by simp)
  | cons b t ih =>
      intro a ha hfa
      rcases List.mem_cons.mp ha with rfl | hmem
      · rw [listMapM, hfa]
        rfl
      · rw [listMapM]
        cases hfb : f b with
        | none => rfl
        | some c =>
            rw [ih hmem hfa]
            rfl

/-- Claim C4, amended: a segment record with fewer than 2 points is NOT
dropped with a warning — the pipeline aborts.  A zero-point segment makes
endpoint collection raise (`pts[0]`), and a one-point segment survives
clustering (contributing two endpoints) but makes the heading pass raise
(`pts[1]`); either way the augmentation pipeline produces no output instead
of continuing without the degenerate segment. -/
theorem degenerate_segment_aborts_pipeline (hf : Point3D → Point3D → ℚ)
    (segs : List Seg) (s : Seg) (hs : s ∈ segs) (hlen : s.points.length < 2) :
    adjacencyPipeline hf segs = none := by
  rw [adjacencyPipeline]
  cases hb : computeDataBounds segs with
  | none => rfl
  | some bounds =>
      simp only [Option.bind_eq_bind, Option.some_bind]
      cases hpts : s.points with
      | cons p rest =>
          cases hrest : rest with
          | cons q rest2 =>
              rw [hpts, hrest] at hlen
              simp only [List.length_cons] at hlen
              omega
          | nil =>
              have hh : headingPass hf segs = none := by
                refine listMapM_none hs ?_
                rw [segHeadings, hpts, hrest]
              cases hn : buildNodeSet bounds segs with
              | none => rfl
              | some t =>
                  obtain ⟨nodes, smap, emap⟩ := t
                  simp only [Option.some_bind]
                  rw [hh]
                  rfl
      | nil =>
          have hce : collectEndpoints segs = none := by
            rw [collectEndpoints, listMapM_none hs (by rw [segEndpoints, hpts]; rfl)]
            rfl
          rw [buildNodeSet, hce]
          rfl

/-- Witness for `degenerate_segment_aborts_pipeline` at a concrete input. -/
theorem degenerate_segment_aborts_pipeline_witness :
    ((⟨"d", [(5,0,5)], 0, 0, []⟩ : Seg) ∈
      [(⟨"d", [(5,0,5)], 0, 0, []⟩ : Seg), ⟨"b", [(0,0,0),(0,0,0)], 0, 0, []⟩]) ∧
    (((⟨"d", [(5,0,5)], 0, 0, []⟩ : Seg).points.length < 2) ∧
    adjacencyPipeline (fun _ _ => 0)
      [⟨"d", [(5,0,5)], 0, 0, []⟩, ⟨"b", [(0,0,0),(0,0,0)], 0, 0, []⟩] = none) :=
  ⟨List.mem_cons_self _ _, by norm_num,
    degenerate_segment_aborts_pipeline (fun _ _ => 0)
      [⟨"d", [(5,0,5)], 0, 0, []⟩, ⟨"b", [(0,0,0),(0,0,0)], 0, 0, []⟩]
      ⟨"d", [(5,0,5)], 0, 0, []⟩ (List.mem_cons_self _ _) (by norm_num)⟩

/-- Counterexample to claim C4 as stated: on a concrete input containing a
one-point segment, the degenerate segment is not dropped — its point is
collected twice into the clustering endpoint list — and processing does not
continue: the pipeline yields no output (the heading pass raises). -/
theorem degenerate_segment_not_dropped :
    collectEndpoints [⟨"d", [(5,0,5)], 0, 0, []⟩, ⟨"b", [(0,0,0),(0,0,0)], 0, 0, []⟩] =
      some [⟨5,5,"d",true⟩, ⟨5,5,"d",false⟩, ⟨0,0,"b",true⟩, ⟨0,0,"b",false⟩] ∧
    adjacencyPipeline (fun _ _ => 0)
      [⟨"d", [(5,0,5)], 0, 0, []⟩, ⟨"b", [(0,0,0),(0,0,0)], 0, 0, []⟩] = none := by
  constructor
  · norm_num [collectEndpoints, listMapM, segEndpoints]
  · rw [adjacencyPipeline]
    cases hb : computeDataBounds
        [(⟨"d", [(5,0,5)], 0, 0, []⟩ : Seg), ⟨"b", [(0,0,0),(0,0,0)], 0, 0, []⟩] with
    | none => rfl
    | some bounds =>
        simp only [Option.bind_eq_bind, Option.some_bind]
        have hh : headingPass (fun _ _ => (0:ℚ))
            [(⟨"d", [(5,0,5)], 0, 0, []⟩ : Seg), ⟨"b", [(0,0,0),(0,0,0)], 0, 0, []⟩] =
            none := listMapM_none (List.mem_cons_self _ _) rfl
        cases hn : buildNodeSet bounds
            [(⟨"d", [(5,0,5)], 0, 0, []⟩ : Seg), ⟨"b", [(0,0,0),(0,0,0)], 0, 0, []⟩] with
        | none => rfl
        | some t =>
            obtain ⟨nodes, smap, emap⟩ := t
            simp only [Option.some_bind]
            rw [hh]
            rfl

/-- `firstOcc` keeps exactly the values of the list. -/
theorem mem_firstOcc_aux (l : List ℕ) :
    ∀ (acc : List ℕ) (x : ℕ),
      x ∈ l.foldl (fun acc r => if r ∈ acc then acc else acc ++ [r]) acc ↔
        x ∈ acc ∨ x ∈ l := by
  induction l with
  | nil => intro acc x; simp
  | cons r t ih =>
      intro acc x
      simp only [List.foldl_cons]
      by_cases hr : r ∈ acc
      · rw [if_pos hr, ih]
        constructor
        · rintro (h | h)
          · exact Or.inl h
          · exact Or.inr (List.mem_cons_of_mem r h)
        · rintro (h | h)
          · exact Or.inl h
          · rcases List.mem_cons.mp h with rfl | h2
            · exact Or.inl hr
            · exact Or.inr h2
      · rw [if_neg hr, ih]
        simp only [List.mem_append, List.mem_singleton, List.mem_cons]
        tauto

theorem mem_firstOcc (l : List ℕ) (x : ℕ) : x ∈ firstOcc l ↔ x ∈ l := by
  rw [firstOcc, mem_firstOcc_aux]
  simp

/-- `firstOcc` produces a duplicate-free list. -/
theorem firstOcc_nodup_aux (l : List ℕ) :
    ∀ (acc : List ℕ), acc.Nodup →
      (l.foldl (fun acc r => if r ∈ acc then acc else acc ++ [r]) acc).Nodup := by
  induction l with
  | nil => intro acc h; exact h
  | cons r t ih =>
      intro acc h
      simp only [List.foldl_cons]
      by_cases hr : r ∈ acc
      · rw [if_pos hr]; exact ih acc h
      · rw [if_neg hr]
        refine ih _ ?_
        simp [List.nodup_append, h, hr]

theorem firstOcc_nodup (l : List ℕ) : (firstOcc l).Nodup :=
  firstOcc_nodup_aux l [] List.nodup_nil

/-- Disjoint predicates split `countP`. -/
theorem countP_or_disjoint {A : Type} (p q : A → Bool) :
    ∀ (l : List A), (∀ a ∈ l, ¬(p a = true ∧ q a = true)) →
      l.countP (fun a => p a || q a) = l.countP p + l.countP q := by
  intro l
  induction l with
  | nil => intro _; rfl
  | cons a t ih =>
      intro hdis
      have ht := ih fun b hb => hdis b (List.mem_cons_of_mem a hb)
      have ha := hdis a (List.mem_cons_self a t)
      by_cases hpa : p a = true
      · have hqa : q a = false := by
          cases hq : q a
          · rfl
          · exact absurd ⟨hpa, hq⟩ ha
        simp [List.countP_cons, hpa, hqa, ht]
        omega
      · have hpa2 : p a = false := by cases hp : p a; rfl; exact absurd hp hpa
        by_cases hqa : q a = true
        · simp [List.countP_cons, hpa2, hqa, ht]
          omega
        · have hqa2 : q a = false := by cases hq : q a; rfl; exact absurd hq hqa
          simp [List.countP_cons, hpa2, hqa2, ht]

/-- Summing per-key counts over a duplicate-free key list counts the
elements whose key belongs to the list. -/
theorem sum_countP_keys {A : Type} (f : A → ℕ) (Q : A → Bool) (l : List A) :
    ∀ (keys : List ℕ), keys.Nodup →
      (keys.map fun r => l.countP fun a => Q a && decide (f a = r)).sum =
        l.countP fun a => Q a && decide (f a ∈ keys) := by
  intro keys
  induction keys with
  | nil =>
      intro _
      simp [List.countP_eq_zero]
  | cons r ks ih =>
      intro hnd
      have hr : r ∉ ks := (List.nodup_cons.mp hnd).1
      have hks : ks.Nodup := (List.nodup_cons.mp hnd).2
      simp only [List.map_cons, List.sum_cons, ih hks]
      have hsplit : (l.countP fun a => Q a && decide (f a ∈ r :: ks)) =
          (l.countP fun a => Q a && decide (f a = r)) +
            (l.countP fun a => Q a && decide (f a ∈ ks)) := by
        rw [← countP_or_disjoint]
        · refine List.countP_congr fun a _ => ?_
          by_cases hQ : Q a = true
          · simp [hQ, List.mem_cons]
          · have : Q a = false := by cases h : Q a; rfl; exact absurd h hQ
            simp [this]
        · intro a _
          rintro ⟨h1, h2⟩
          simp only [Bool.and_eq_true, decide_eq_true_eq] at h1 h2
          exact hr (h1.2 ▸ h2.2)
      rw [hsplit]

/-- Summing member counts over the clusters counts all covered indices:
the clusters partition `range n` by root value. -/
theorem sum_over_clusters (n : ℕ) (roots : List ℕ) (P : ℕ → Bool)
    (hcov : ∀ i ∈ List.range n, roots.getD i 0 ∈ firstOcc roots) :
    ((firstOcc roots).map fun r =>
      ((List.range n).filter fun i => roots.getD i 0 = r).countP P).sum =
      (List.range n).countP P := by
  have h1 : ((firstOcc roots).map fun r =>
      ((List.range n).filter fun i => roots.getD i 0 = r).countP P) =
      (firstOcc roots).map fun r =>
        (List.range n).countP fun i => P i && decide (roots.getD i 0 = r) :=
    List.map_congr_left fun r _ => List.countP_filter _ _ _
  rw [h1, sum_countP_keys (fun i => roots.getD i 0) P (List.range n)
    (firstOcc roots) (firstOcc_nodup roots)]
  refine List.countP_congr fun i hi => ?_
  have hmem := hcov i hi
  cases hP : P i
  · simp
  · simp only [Bool.true_and, decide_eq_true_eq]
    exact iff_true_intro hmem

/-- Reading a list back via `getD` over its index range. -/
theorem map_getD_range {A : Type} (d : A) (eps : List A) :
    (List.range eps.length).map (fun i => eps.getD i d) = eps := by
  induction eps with
  | nil => rfl
  | cons a t ih =>
      rw [List.length_cons, List.range_succ_eq_map]
      simp only [List.map_cons, List.getD_cons_zero, List.map_map]
      have h2 : ((fun i => (a :: t).getD i d) ∘ Nat.succ) = fun i => t.getD i d := by
        funext i
        simp
      rw [h2, ih]

/-- `countP` over an index range equals `countP` over the list itself. -/
theorem countP_range_getD {A : Type} (d : A) (eps : List A) (Q : A → Bool) :
    (List.range eps.length).countP (fun i => Q (eps.getD i d)) = eps.countP Q := by
  have h := List.countP_map Q (fun i => eps.getD i d) (List.range eps.length)
  rw [map_getD_range] at h
  rw [h]
  rfl

/-- The roots list has one entry per endpoint. -/
theorem computeRoots_length_aux (n : ℕ) :
    ∀ (l : List ℕ) (rs : List ℕ) (p : ℕ → ℕ),
      ((l.foldl (fun acc i =>
        let fc := findCompress n acc.2 i
        (acc.1 ++ [fc.1], fc.2)) (rs, p)).1).length = rs.length + l.length := by
  intro l
  induction l with
  | nil => intro rs p; simp
  | cons i t ih =>
      intro rs p
      rw [List.foldl_cons]
      show ((t.foldl (fun acc i =>
          let fc := findCompress n acc.2 i
          (acc.1 ++ [fc.1], fc.2))
          (rs ++ [(findCompress n p i).1], (findCompress n p i).2)).1).length =
        rs.length + (i :: t).length
      rw [ih]
      simp only [List.length_append, List.length_cons, List.length_nil]
      omega

theorem rootsListOf_length (eps : List Endpoint) :
    (rootsListOf eps).length = eps.length := by
  rw [rootsListOf, computeRoots]
  rw [computeRoots_length_aux]
  simp

/-- `countP` distributes over `flatMap` as a sum. -/
theorem countP_flatMap {A B : Type} (p : B → Bool) (f : A → List B) (l : List A) :
    (l.flatMap f).countP p = (l.map fun a => (f a).countP p).sum := by
  induction l with
  | nil => rfl
  | cons a t ih =>
      simp only [List.flatMap_cons, List.countP_append, List.map_cons, List.sum_cons, ih]

/-- Sums transfer along `Forall₂`. -/
theorem forall₂_map_sum_eq {A B : Type} {R : A → B → Prop} (f : A → ℕ) (g : B → ℕ)
    (h : ∀ a b, R a b → f a = g b) :
    ∀ {l1 : List A} {l2 : List B}, List.Forall₂ R l1 l2 →
      (l1.map f).sum = (l2.map g).sum := by
  intro l1 l2 hf
  induction hf with
  | nil => rfl
  | @cons a b t1 t2 ha ht ih => simp only [List.map_cons, List.sum_cons, ih, h a b ha]

/-- The endpoint pair a segment contributes carries the segment's id, with
the start/end roles marked. -/
theorem segEndpoints_fields (s : Seg) (pq : Endpoint × Endpoint)
    (h : segEndpoints s = some pq) :
    pq.1.segmentId = s.id ∧ pq.1.isStart = true ∧
      pq.2.segmentId = s.id ∧ pq.2.isStart = false := by
  rw [segEndpoints] at h
  cases h1 : s.points.head? with
  | none => rw [h1] at h; exact absurd h (by simp)
  | some p0 =>
      cases h2 : s.points.getLast? with
      | none => rw [h1, h2] at h; exact absurd h (by simp)
      | some pl =>
          rw [h1, h2] at h
          simp only [Option.some.injEq] at h
          rw [← h]
          exact ⟨rfl, rfl, rfl, rfl⟩

/-- Indicator-sum form of `count` with the equation flipped. -/
theorem sum_map_ite_count_right {A : Type} [DecidableEq A] (a : A) (l : List A) :
    (l.map fun b => if b = a then (1:ℕ) else 0).sum = l.count a := by
  have h : (l.map fun b => if b = a then (1:ℕ) else 0) =
      l.map fun b => if a = b then (1:ℕ) else 0 :=
    List.map_congr_left fun b _ => by
      by_cases hb : b = a
      · simp [hb]
      · simp [hb, Ne.symm hb]
  rw [h, sum_map_ite_count]

/-- In an id-unique segment list, a given segment's id marks exactly one
start endpoint and exactly one end endpoint among all collected endpoints. -/
theorem eps_unique_start_end (segs : List Seg) (eps : List Endpoint)
    (hc : collectEndpoints segs = some eps)
    (hnd : (segs.map fun s => s.id).Nodup) (s : Seg) (hs : s ∈ segs) :
    eps.countP (fun e => e.isStart && decide (e.segmentId = s.id)) = 1 ∧
      eps.countP (fun e => !e.isStart && decide (e.segmentId = s.id)) = 1 := by
  rw [collectEndpoints] at hc
  rw [Option.map_eq_some'] at hc
  obtain ⟨prs, hprs, heps⟩ := hc
  have hfa := listMapM_eq_some hprs
  have hcount : ∀ (Q : Endpoint → Bool),
      (∀ t pq, segEndpoints t = some pq →
        [pq.1, pq.2].countP Q = if t.id = s.id then 1 else 0) →
      eps.countP Q = 1 := by
    intro Q hQ
    rw [← heps, countP_flatMap]
    have hsum : (prs.map fun pq => ([pq.1, pq.2].countP Q)).sum =
        (segs.map fun t => if t.id = s.id then (1:ℕ) else 0).sum := by
      refine (forall₂_map_sum_eq _ _ ?_ hfa).symm
      intro t pq hpq
      exact (hQ t pq hpq).symm
    rw [hsum]
    have hmm : (segs.map fun t => if t.id = s.id then (1:ℕ) else 0) =
        (segs.map fun t => t.id).map fun b => if b = s.id then (1:ℕ) else 0 := by
      rw [List.map_map]
      rfl
    rw [hmm, sum_map_ite_count_right, List.count_eq_one_of_mem hnd]
    exact List.mem_map_of_mem _ hs
  constructor
  · refine hcount _ ?_
    intro t pq hpq
    obtain ⟨hid1, hst1, hid2, hst2⟩ := segEndpoints_fields t pq hpq
    simp only [List.countP_cons, List.countP_nil, hid1, hst1, hid2, hst2]
    by_cases h : t.id = s.id
    · simp [h]
    · simp [h]
  · refine hcount _ ?_
    intro t pq hpq
    obtain ⟨hid1, hst1, hid2, hst2⟩ := segEndpoints_fields t pq hpq
    simp only [List.countP_cons, List.countP_nil, hid1, hst1, hid2, hst2]
    by_cases h : t.id = s.id
    · simp [h]
    · simp [h]

/-- Summed over all clusters, the per-node role lists (outgoing/incoming)
count exactly the endpoints with that role and segment id. -/
theorem sum_clusters_filter_count (eps : List Endpoint) (sel : Endpoint → Bool)
    (sid : String) :
    ((clusterMembersOf eps).map fun mem =>
      ((mem.filter fun i => sel (epAt eps i)).map
        fun i => (epAt eps i).segmentId).count sid).sum =
      eps.countP fun e => sel e && decide (e.segmentId = sid) := by
  have hstep : ∀ mem : List ℕ,
      ((mem.filter fun i => sel (epAt eps i)).map
        fun i => (epAt eps i).segmentId).count sid =
      mem.countP fun i =>
        ((epAt eps i).segmentId == sid) && sel (epAt eps i) := by
    intro mem
    show ((mem.filter fun i => sel (epAt eps i)).map
        fun i => (epAt eps i).segmentId).countP (· == sid) = _
    rw [List.countP_map, List.countP_filter]
    rfl
  have h1 : ((clusterMembersOf eps).map fun mem =>
      ((mem.filter fun i => sel (epAt eps i)).map
        fun i => (epAt eps i).segmentId).count sid) =
      (clusterMembersOf eps).map fun mem => mem.countP fun i =>
        ((epAt eps i).segmentId == sid) && sel (epAt eps i) :=
    List.map_congr_left fun mem _ => hstep mem
  rw [h1]
  rw [clusterMembersOf]
  rw [List.map_map]
  have h2 : ((fun mem => mem.countP fun i =>
        ((epAt eps i).segmentId == sid) && sel (epAt eps i)) ∘
      fun r => (List.range eps.length).filter
        fun i => (rootsListOf eps).getD i 0 = r) =
      fun r => ((List.range eps.length).filter
        fun i => (rootsListOf eps).getD i 0 = r).countP fun i =>
          ((epAt eps i).segmentId == sid) && sel (epAt eps i) := rfl
  rw [h2]
  have hcov : ∀ i ∈ List.range eps.length,
      (rootsListOf eps).getD i 0 ∈ firstOcc (rootsListOf eps) := by
    intro i hi
    have hlt : i < (rootsListOf eps).length := by
      rw [rootsListOf_length]
      exact List.mem_range.mp hi
    rw [mem_firstOcc, List.getD_eq_getElem _ _ hlt]
    exact List.getElem_mem _
  rw [sum_over_clusters eps.length (rootsListOf eps) _ hcov]
  have h3 := countP_range_getD epDefault eps
    (fun e => (e.segmentId == sid) && sel e)
  simp only [epAt]
  rw [h3]
  refine List.countP_congr fun e _ => ?_
  by_cases hsel : sel e
  · by_cases hid : e.segmentId = sid
    · simp [hsel, hid]
    · simp [hsel, hid]
  · simp [hsel]

/-- Membership characterization of the `start_node_map` write list. -/
theorem mem_startNodeWrites_iff (eps : List Endpoint) (sid : String) (k : ℕ) :
    (sid, k) ∈ startNodeWrites eps ↔
      ∃ km ∈ (clusterMembersOf eps).enum, km.1 = k ∧
        ∃ i ∈ km.2, (epAt eps i).isStart = true ∧ (epAt eps i).segmentId = sid := by
  rw [startNodeWrites]
  simp only [List.mem_flatMap, List.mem_map, List.mem_filter, Prod.mk.injEq]
  constructor
  · rintro ⟨km, hkm, i, ⟨hi, hsel⟩, hid, hk⟩
    exact ⟨km, hkm, hk, i, hi, hsel, hid⟩
  · rintro ⟨km, hkm, hk, i, hi, hsel, hid⟩
    exact ⟨km, hkm, i, ⟨hi, hsel⟩, hid, hk⟩

/-- Membership characterization of the `end_node_map` write list. -/
theorem mem_endNodeWrites_iff (eps : List Endpoint) (sid : String) (k : ℕ) :
    (sid, k) ∈ endNodeWrites eps ↔
      ∃ km ∈ (clusterMembersOf eps).enum, km.1 = k ∧
        ∃ i ∈ km.2, (!(epAt eps i).isStart) = true ∧ (epAt eps i).segmentId = sid := by
  rw [endNodeWrites]
  simp only [List.mem_flatMap, List.mem_map, List.mem_filter, Prod.mk.injEq]
  constructor
  · rintro ⟨km, hkm, i, ⟨hi, hsel⟩, hid, hk⟩
    exact ⟨km, hkm, hk, i, hi, hsel, hid⟩
  · rintro ⟨km, hkm, hk, i, hi, hsel, hid⟩
    exact ⟨km, hkm, i, ⟨hi, hsel⟩, hid, hk⟩

/-- Claim C9: after clustering, each segment id appears exactly once across
all node `outgoing` lists and exactly once across all `incoming` lists (so
in exactly one node each, never twice in one list), and the node holding it
is precisely the one its start (resp. end) endpoint was assigned to in the
start/end node maps. -/
theorem segment_assigned_to_exactly_one_node (bounds : Bounds) (segs : List Seg)
    (eps : List Endpoint) (nodes : List RoadNode) (smap emap : List (String × ℕ))
    (hnd : (segs.map fun s => s.id).Nodup)
    (hc : collectEndpoints segs = some eps)
    (hb : buildNodeSet bounds segs = some (nodes, smap, emap)) :
    ∀ s ∈ segs,
      (nodes.map fun nd => nd.outgoing.count s.id).sum = 1 ∧
      (nodes.map fun nd => nd.incoming.count s.id).sum = 1 ∧
      (∀ nd ∈ nodes, (s.id ∈ nd.outgoing ↔ (s.id, nd.id) ∈ smap)) ∧
      (∀ nd ∈ nodes, (s.id ∈ nd.incoming ↔ (s.id, nd.id) ∈ emap)) := by
  have hb2 : nodes = nodesOf bounds eps ∧ smap = startNodeWrites eps ∧
      emap = endNodeWrites eps := by
    rw [buildNodeSet, hc] at hb
    simp only [Option.map_some', Option.some.injEq] at hb
    exact ⟨(congrArg (fun t => t.1) hb).symm, (congrArg (fun t => t.2.1) hb).symm,
      (congrArg (fun t => t.2.2) hb).symm⟩
  obtain ⟨h1, h2, h3⟩ := hb2
  subst h1
  subst h2
  subst h3
  intro s hs
  obtain ⟨hstart, hend⟩ := eps_unique_start_end segs eps hc hnd s hs
  have henum_nodup : ((clusterMembersOf eps).enum.map Prod.fst).Nodup := by
    simp [List.enum_map_fst, List.nodup_range]
  have hmap_out : ((nodesOf bounds eps).map fun nd => nd.outgoing.count s.id) =
      (clusterMembersOf eps).map fun mem =>
        ((mem.filter fun i => (epAt eps i).isStart).map
          fun i => (epAt eps i).segmentId).count s.id := by
    rw [nodesOf, List.map_map]
    have hco : ((fun nd : RoadNode => nd.outgoing.count s.id) ∘
        fun km : ℕ × List ℕ => mkRoadNode bounds eps km.1 km.2) =
        ((fun mem => ((mem.filter fun i => (epAt eps i).isStart).map
          fun i => (epAt eps i).segmentId).count s.id) ∘ Prod.snd) := rfl
    rw [hco, ← List.map_map, List.enum_map_snd]
  have hmap_in : ((nodesOf bounds eps).map fun nd => nd.incoming.count s.id) =
      (clusterMembersOf eps).map fun mem =>
        ((mem.filter fun i => !(epAt eps i).isStart).map
          fun i => (epAt eps i).segmentId).count s.id := by
    rw [nodesOf, List.map_map]
    have hco : ((fun nd : RoadNode => nd.incoming.count s.id) ∘
        fun km : ℕ × List ℕ => mkRoadNode bounds eps km.1 km.2) =
        ((fun mem => ((mem.filter fun i => !(epAt eps i).isStart).map
          fun i => (epAt eps i).segmentId).count s.id) ∘ Prod.snd) := rfl
    rw [hco, ← List.map_map, List.enum_map_snd]
  refine ⟨?_, ?_, ?_, ?_⟩
  · rw [hmap_out, sum_clusters_filter_count eps (fun e => e.isStart) s.id]
    exact hstart
  · rw [hmap_in, sum_clusters_filter_count eps (fun e => !e.isStart) s.id]
    exact hend
  · intro nd hnd2
    rw [nodesOf] at hnd2
    obtain ⟨km, hkm, rfl⟩ := List.mem_map.mp hnd2
    have hl : s.id ∈ (mkRoadNode bounds eps km.1 km.2).outgoing ↔
        ∃ i ∈ km.2, (epAt eps i).isStart = true ∧ (epAt eps i).segmentId = s.id := by
      show s.id ∈ (km.2.filter fun i => (epAt eps i).isStart).map
          (fun i => (epAt eps i).segmentId) ↔ _
      simp only [List.mem_map, List.mem_filter]
      constructor
      · rintro ⟨i, ⟨hi, hsel⟩, hid⟩
        exact ⟨i, hi, hsel, hid⟩
      · rintro ⟨i, hi, hsel, hid⟩
        exact ⟨i, ⟨hi, hsel⟩, hid⟩
    rw [hl, mem_startNodeWrites_iff]
    constructor
    · rintro ⟨i, hi, hsel, hid⟩
      exact ⟨km, hkm, rfl, i, hi, hsel, hid⟩
    · rintro ⟨km2, hkm2, hk, i, hi, hsel, hid⟩
      have hkmeq : km2 = km := List.inj_on_of_nodup_map henum_nodup hkm2 hkm hk
      subst hkmeq
      exact ⟨i, hi, hsel, hid⟩
  · intro nd hnd2
    rw [nodesOf] at hnd2
    obtain ⟨km, hkm, rfl⟩ := List.mem_map.mp hnd2
    have hl : s.id ∈ (mkRoadNode bounds eps km.1 km.2).incoming ↔
        ∃ i ∈ km.2, (!(epAt eps i).isStart) = true ∧ (epAt eps i).segmentId = s.id := by
      show s.id ∈ (km.2.filter fun i => !(epAt eps i).isStart).map
          (fun i => (epAt eps i).segmentId) ↔ _
      simp only [List.mem_map, List.mem_filter]
      constructor
      · rintro ⟨i, ⟨hi, hsel⟩, hid⟩
        exact ⟨i, hi, hsel, hid⟩
      · rintro ⟨i, hi, hsel, hid⟩
        exact ⟨i, ⟨hi, hsel⟩, hid⟩
    rw [hl, mem_endNodeWrites_iff]
    constructor
    · rintro ⟨i, hi, hsel, hid⟩
      exact ⟨km, hkm, rfl, i, hi, hsel, hid⟩
    · rintro ⟨km2, hkm2, hk, i, hi, hsel, hid⟩
      have hkmeq : km2 = km := List.inj_on_of_nodup_map henum_nodup hkm2 hkm hk
      subst hkmeq
      exact ⟨i, hi, hsel, hid⟩

/-- Witness for `segment_assigned_to_exactly_one_node` on a one-segment
input whose two endpoints cluster into a single node. -/
theorem segment_assigned_to_exactly_one_node_witness :
    (([⟨"a", [(0,0,0),(0,0,0)], 0, 0, []⟩] : List Seg).map fun s => s.id).Nodup ∧
    collectEndpoints [⟨"a", [(0,0,0),(0,0,0)], 0, 0, []⟩] =
      some [⟨0,0,"a",true⟩, ⟨0,0,"a",false⟩] ∧
    buildNodeSet ⟨0,0,0,0⟩ [⟨"a", [(0,0,0),(0,0,0)], 0, 0, []⟩] =
      some ([⟨0, (0, 0), ["a"], ["a"], true⟩], [("a", 0)], [("a", 0)]) ∧
    (([(⟨0, (0, 0), ["a"], ["a"], true⟩ : RoadNode)].map
        fun nd => nd.outgoing.count "a").sum = 1 ∧
      ([(⟨0, (0, 0), ["a"], ["a"], true⟩ : RoadNode)].map
        fun nd => nd.incoming.count "a").sum = 1) := by
  have hnd : (([⟨"a", [(0,0,0),(0,0,0)], 0, 0, []⟩] : List Seg).map fun s => s.id).Nodup := by
    simp
  have hc : collectEndpoints [⟨"a", [(0,0,0),(0,0,0)], 0, 0, []⟩] =
      some [⟨0,0,"a",true⟩, ⟨0,0,"a",false⟩] := by
    norm_num [collectEndpoints, listMapM, segEndpoints]
  have hroots : rootsListOf [⟨0,0,"a",true⟩, ⟨0,0,"a",false⟩] = [0, 0] := by
    norm_num [rootsListOf, computeRoots, clusterUF, allPairs, UF.union, UF.init,
      findCompress, closePair, distSq, epAt, SNAP_RADIUS, List.range, List.range',
      List.foldl]
  have hmem : clusterMembersOf [⟨0,0,"a",true⟩, ⟨0,0,"a",false⟩] = [[0, 1]] := by
    rw [clusterMembersOf]
    simp only [hroots]
    decide
  have hnodes : nodesOf ⟨0,0,0,0⟩ [⟨0,0,"a",true⟩, ⟨0,0,"a",false⟩] =
      [⟨0, (0, 0), ["a"], ["a"], true⟩] := by
    rw [nodesOf, hmem]
    norm_num [mkRoadNode, clusterCentroid, epAt, roundHalfEven2, isNearBoundary,
      BOUNDARY_BUFFER, List.enum]
  have hsw : startNodeWrites [⟨0,0,"a",true⟩, ⟨0,0,"a",false⟩] = [("a", 0)] := by
    norm_num [startNodeWrites, hmem, epAt, List.enum]
  have hew : endNodeWrites [⟨0,0,"a",true⟩, ⟨0,0,"a",false⟩] = [("a", 0)] := by
    norm_num [endNodeWrites, hmem, epAt, List.enum]
  have hb : buildNodeSet ⟨0,0,0,0⟩ [⟨"a", [(0,0,0),(0,0,0)], 0, 0, []⟩] =
      some ([⟨0, (0, 0), ["a"], ["a"], true⟩], [("a", 0)], [("a", 0)]) := by
    rw [buildNodeSet, hc]
    rw [Option.map_some']
    rw [hnodes, hsw, hew]
  have happ := segment_assigned_to_exactly_one_node ⟨0,0,0,0⟩
    [⟨"a", [(0,0,0),(0,0,0)], 0, 0, []⟩] [⟨0,0,"a",true⟩, ⟨0,0,"a",false⟩]
    [⟨0, (0, 0), ["a"], ["a"], true⟩] [("a", 0)] [("a", 0)] hnd hc hb
    ⟨"a", [(0,0,0),(0,0,0)], 0, 0, []⟩ (List.mem_cons_self _ _)
  exact ⟨hnd, hc, hb, happ.1, happ.2.1⟩

/-- A fixpoint stays fixed under iteration. -/
theorem iterate_fix (p : ℕ → ℕ) (r : ℕ) (hr : p r = r) : ∀ k, p^[k] r = r := by
  intro k
  induction k with
  | zero => rfl
  | succ k ih => rw [Function.iterate_succ_apply, hr, ih]

/-- `findRoot` at a fixpoint returns it, for any fuel. -/
theorem findRoot_of_fix (p : ℕ → ℕ) (x : ℕ) (hx : p x = x) :
    ∀ fuel, findRoot fuel p x = x := by
  intro fuel
  cases fuel with
  | zero => rfl
  | succ fuel => rw [findRoot, if_pos hx]

/-- Stepping off a non-fixed element shortens the fixpoint distance. -/
theorem fixWithin_step {p : ℕ → ℕ} {x fuel : ℕ} (h : FixWithin p x (fuel + 1))
    (hx : p x ≠ x) : FixWithin p (p x) fuel := by
  obtain ⟨k, hk, hfix⟩ := h
  cases k with
  | zero => exact absurd hfix hx
  | succ k =>
      refine ⟨k, by omega, ?_⟩
      rw [← Function.iterate_succ_apply]
      exact hfix

/-- With enough fuel, `findRoot` lands on a fixpoint. -/
theorem findRoot_is_fix {p : ℕ → ℕ} :
    ∀ {fuel x : ℕ}, FixWithin p x fuel → p (findRoot fuel p x) = findRoot fuel p x := by
  intro fuel
  induction fuel with
  | zero =>
      intro x h
      obtain ⟨k, hk, hfix⟩ := h
      obtain rfl : k = 0 := by omega
      exact hfix
  | succ fuel ih =>
      intro x h
      by_cases hx : p x = x
      · rw [findRoot, if_pos hx]
        exact hx
      · rw [findRoot, if_neg hx]
        exact ih (fixWithin_step h hx)

/-- `findRoot` returns some iterate of its argument. -/
theorem findRoot_is_iterate (p : ℕ → ℕ) :
    ∀ (fuel x : ℕ), ∃ k ≤ fuel, findRoot fuel p x = p^[k] x := by
  intro fuel
  induction fuel with
  | zero => intro x; exact ⟨0, le_refl 0, rfl⟩
  | succ fuel ih =>
      intro x
      by_cases hx : p x = x
      · rw [findRoot, if_pos hx]
        exact ⟨0, by omega, rfl⟩
      · rw [findRoot, if_neg hx]
        obtain ⟨k, hk, hit⟩ := ih (p x)
        exact ⟨k + 1, by omega, by rw [Function.iterate_succ_apply]; exact hit⟩

/-- Extra fuel does not change the root once a fixpoint is in reach. -/
theorem findRoot_fuel_mono {p : ℕ → ℕ} :
    ∀ {fuel x : ℕ}, FixWithin p x fuel → ∀ j, findRoot (fuel + j) p x = findRoot fuel p x := by
  intro fuel
  induction fuel with
  | zero =>
      intro x h j
      obtain ⟨k, hk, hfix⟩ := h
      obtain rfl : k = 0 := by omega
      rw [findRoot_of_fix p x hfix, findRoot_of_fix p x hfix]
  | succ fuel ih =>
      intro x h j
      by_cases hx : p x = x
      · rw [findRoot_of_fix p x hx, findRoot_of_fix p x hx]
      · have hstep := fixWithin_step h hx
        have h1 : fuel + 1 + j = (fuel + j) + 1 := by omega
        rw [h1, findRoot, if_neg hx, findRoot, if_neg hx]
        exact ih hstep j

/-- The root is invariant under one parent step. -/
theorem findRoot_parent_eq {p : ℕ → ℕ} {n x : ℕ}
    (hall : ∀ w, FixWithin p w n) :
    findRoot n p x = findRoot n p (p x) := by
  cases n with
  | zero =>
      obtain ⟨k, hk, hfix⟩ := hall x
      obtain rfl : k = 0 := by omega
      simp only [Function.iterate_zero, id_eq] at hfix
      exact hfix.symm
  | succ n =>
      by_cases hx : p x = x
      · rw [hx]
      · rw [findRoot, if_neg hx]
        have hstep := fixWithin_step (hall x) hx
        have := findRoot_fuel_mono hstep 1
        rw [← this]

/-- The root is invariant under any number of parent steps. -/
theorem findRoot_iterate_eq {p : ℕ → ℕ} {n : ℕ}
    (hall : ∀ w, FixWithin p w n) :
    ∀ (k x : ℕ), findRoot n p x = findRoot n p (p^[k] x) := by
  intro k
  induction k with
  | zero => intro x; rfl
  | succ k ih =>
      intro x
      rw [Function.iterate_succ_apply]
      rw [findRoot_parent_eq hall]
      exact ih (p x)

/-- Uniqueness: any root reached from `x` is the `findRoot` value. -/
theorem root_unique {p : ℕ → ℕ} {n x r : ℕ}
    (hall : ∀ w, FixWithin p w n) (h : IsRootOf p x r) :
    findRoot n p x = r := by
  obtain ⟨k, hit, hfix⟩ := h
  rw [findRoot_iterate_eq hall k x, hit]
  exact findRoot_of_fix p r hfix n

/-- Iterates of an in-range element stay in range. -/
theorem iterate_lt {p : ℕ → ℕ} {n x : ℕ} (hcl : UFClosed n p) (hx : x < n) :
    ∀ k, p^[k] x < n := by
  intro k
  induction k with
  | zero => exact hx
  | succ k ih =>
      rw [Function.iterate_succ_apply']
      exact ((hcl _).1) ih

/-- Ranks strictly increase along a fixpoint-free chain. -/
theorem rank_chain {p rk : ℕ → ℕ} {n x : ℕ} (hcl : UFClosed n p)
    (hrk : RankUp n p rk) (hx : x < n) :
    ∀ j, (∀ m < j, p (p^[m] x) ≠ p^[m] x) →
      ∀ i < j, rk (p^[i] x) < rk (p^[j] x) := by
  intro j
  induction j with
  | zero => intro _ i hi; omega
  | succ j ih =>
      intro hnf i hi
      have hlast : rk (p^[j] x) < rk (p^[j+1] x) := by
        rw [Function.iterate_succ_apply']
        exact hrk _ (iterate_lt hcl hx j) (hnf j (by omega))
      by_cases hij : i = j
      · rw [hij]
        exact hlast
      · have : i < j := by omega
        exact lt_trans (ih (fun m hm => hnf m (by omega)) i this) hlast

/-- Pigeonhole: under the union-by-rank forest invariants every parent
chain reaches a fixpoint within `n` steps. -/
theorem depth_bound {p rk : ℕ → ℕ} {n : ℕ} (hcl : UFClosed n p)
    (hrk : RankUp n p rk) : ∀ x, FixWithin p x n := by
  intro x
  by_cases hx : x < n
  · by_contra hno
    have hnf : ∀ m ≤ n, p (p^[m] x) ≠ p^[m] x := by
      intro m hm hfix
      exact hno ⟨m, hm, hfix⟩
    have hcard : Fintype.card (Fin n) < Fintype.card (Fin (n + 1)) := by
      simp
    obtain ⟨a, b, hab, heq⟩ := Fintype.exists_ne_map_eq_of_card_lt
      (fun k : Fin (n + 1) => (⟨p^[k.1] x, iterate_lt hcl hx k.1⟩ : Fin n)) hcard
    have hval : p^[a.1] x = p^[b.1] x := by
      have := congrArg Fin.val heq
      simpa using this
    rcases lt_trichotomy a.1 b.1 with hlt | heqv | hgt
    · have := rank_chain hcl hrk hx b.1
        (fun m hm => hnf m (by omega)) a.1 hlt
      rw [hval] at this
      exact lt_irrefl _ this
    · exact hab (Fin.ext heqv)
    · have := rank_chain hcl hrk hx a.1
        (fun m hm => hnf m (by omega)) b.1 hgt
      rw [hval] at this
      exact lt_irrefl _ this
  · refine ⟨0, by omega, ?_⟩
    simp only [Function.iterate_zero, id_eq]
    exact ((hcl x).2) (by omega)

/-- The root of an in-range element is in range. -/
theorem findRoot_lt {p : ℕ → ℕ} {n x : ℕ} (hcl : UFClosed n p)
    (hx : x < n) : findRoot n p x < n := by
  obtain ⟨k, -, hit⟩ := findRoot_is_iterate p n x
  rw [hit]
  exact iterate_lt hcl hx k

/-- Ranks strictly increase from an element to its (distinct) root. -/
theorem rank_lt_findRoot {p rk : ℕ → ℕ} {n : ℕ} (hcl : UFClosed n p)
    (hrk : RankUp n p rk) :
    ∀ (fuel x : ℕ), x < n → FixWithin p x fuel →
      findRoot fuel p x ≠ x → rk x < rk (findRoot fuel p x) := by
  intro fuel
  induction fuel with
  | zero => intro x _ _ hne; exact absurd rfl hne
  | succ fuel ih =>
      intro x hx hfix hne
      by_cases hpx : p x = x
      · rw [findRoot, if_pos hpx] at hne
        exact absurd rfl hne
      · rw [findRoot, if_neg hpx] at hne ⊢
        have hrank1 : rk x < rk (p x) := hrk x hx hpx
        by_cases hroot : findRoot fuel p (p x) = p x
        · rw [hroot]
          exact hrank1
        · exact lt_trans hrank1
            (ih (p x) ((hcl x).1 hx) (fixWithin_step hfix hpx) hroot)

/-- The value returned by the compressing find is the root. -/
theorem findCompress_fst (p : ℕ → ℕ) :
    ∀ (fuel x : ℕ), (findCompress fuel p x).1 = findRoot fuel p x := by
  intro fuel
  induction fuel with
  | zero => intro x; rfl
  | succ fuel ih =>
      intro x
      by_cases hx : p x = x
      · rw [findCompress, findRoot, if_pos hx, if_pos hx]
      · rw [findCompress, findRoot, if_neg hx, if_neg hx]
        exact ih (p x)

/-- Path compression only redirects entries to their roots. -/
theorem findCompress_snd {p : ℕ → ℕ} :
    ∀ {fuel x : ℕ}, FixWithin p x fuel → RootPres p (findCompress fuel p x).2 := by
  intro fuel
  induction fuel with
  | zero => intro x _ z; exact Or.inl rfl
  | succ fuel ih =>
      intro x hfix z
      by_cases hx : p x = x
      · rw [findCompress, if_pos hx]
        exact Or.inl rfl
      · have hdef : (findCompress (fuel + 1) p x).2 =
            fun y => if y = x then (findCompress fuel p (p x)).1
              else (findCompress fuel p (p x)).2 y := by
          rw [findCompress, if_neg hx]
        rw [hdef]
        by_cases hz : z = x
        · subst hz
          simp only [eq_self_iff_true, if_true]
          refine Or.inr ?_
          rw [findCompress_fst]
          obtain ⟨k, -, hit⟩ := findRoot_is_iterate p fuel (p z)
          refine ⟨k + 1, ?_, ?_⟩
          · rw [Function.iterate_succ_apply, ← hit]
          · exact findRoot_is_fix (fixWithin_step hfix hx)
        · simp only [if_neg hz]
          exact ih (fixWithin_step hfix hx) z

/-- Root-preserving rewrites keep fixpoints fixed. -/
theorem rootPres_fix {p q : ℕ → ℕ} (h : RootPres p q) {r : ℕ} (hr : p r = r) :
    q r = r := by
  rcases h r with h1 | ⟨k, hit, -⟩
  · rw [h1, hr]
  · rw [iterate_fix p r hr k] at hit
    exact hit.symm

/-- Under a root-preserving rewrite, every element still reaches its old
root. -/
theorem rootPres_isRootOf {p q : ℕ → ℕ} {n : ℕ} (hpres : RootPres p q)
    (hall : ∀ w, FixWithin p w n) :
    ∀ (k z : ℕ), p (p^[k] z) = p^[k] z → IsRootOf q z (findRoot n p z) := by
  intro k
  induction k with
  | zero =>
      intro z hfix
      simp only [Function.iterate_zero, id_eq] at hfix
      rw [findRoot_of_fix p z hfix]
      exact ⟨0, rfl, rootPres_fix hpres hfix⟩
  | succ k ih =>
      intro z hfix
      by_cases hz : p z = z
      · rw [findRoot_of_fix p z hz]
        exact ⟨0, rfl, rootPres_fix hpres hz⟩
      · rcases hpres z with h1 | h2
        · have hstep : p (p^[k] (p z)) = p^[k] (p z) := by
            rw [← Function.iterate_succ_apply]
            exact hfix
          obtain ⟨m, hit, hfix2⟩ := ih (p z) hstep
          refine ⟨m + 1, ?_, ?_⟩
          · rw [Function.iterate_succ_apply, h1, hit,
              ← findRoot_parent_eq hall]
          · rw [← findRoot_parent_eq hall] at hfix2
            exact hfix2
        · obtain ⟨m, hit, hfixw⟩ := h2
          have hw : findRoot n p z = q z := by
            refine root_unique hall ⟨m, hit, hfixw⟩
          rw [hw]
          exact ⟨1, by simp, rootPres_fix hpres hfixw⟩

/-- Ranks never decrease along a parent chain. -/
theorem rank_le_iterate {p rk : ℕ → ℕ} {n : ℕ} (hcl : UFClosed n p)
    (hrk : RankUp n p rk) {x : ℕ} (hx : x < n) :
    ∀ k, rk x ≤ rk (p^[k] x) := by
  intro k
  induction k with
  | zero => exact le_refl _
  | succ k ih =>
      rw [Function.iterate_succ_apply']
      by_cases hfix : p (p^[k] x) = p^[k] x
      · rw [hfix]; exact ih
      · exact le_trans ih (le_of_lt (hrk _ (iterate_lt hcl hx k) hfix))

/-- A root-preserving rewrite stays closed on `0..n-1`. -/
theorem rootPres_closed {p q : ℕ → ℕ} {n : ℕ} (hcl : UFClosed n p)
    (hpres : RootPres p q) : UFClosed n q := by
  intro x
  constructor
  · intro hx
    rcases hpres x with h1 | ⟨k, hit, -⟩
    · rw [h1]; exact (hcl x).1 hx
    · rw [← hit]; exact iterate_lt hcl hx k
  · intro hx
    exact rootPres_fix hpres ((hcl x).2 hx)

/-- A root-preserving rewrite keeps the rank invariant (with the same rank
function). -/
theorem rootPres_rankup {p q rk : ℕ → ℕ} {n : ℕ} (hcl : UFClosed n p)
    (hrk : RankUp n p rk) (hpres : RootPres p q) : RankUp n q rk := by
  intro x hx hne
  rcases hpres x with h1 | ⟨k, hit, -⟩
  · rw [h1] at hne ⊢
    exact hrk x hx hne
  · have hpx : p x ≠ x := by
      intro hfix
      apply hne
      rw [← hit, iterate_fix p x hfix k]
    cases k with
    | zero =>
        simp only [Function.iterate_zero, id_eq] at hit
        exact absurd hit.symm hne
    | succ k =>
        rw [← hit, Function.iterate_succ_apply]
        exact lt_of_lt_of_le (hrk x hx hpx)
          (rank_le_iterate hcl hrk ((hcl x).1 hx) k)

/-- Root-preserving rewrites (with intact invariants) change no root
value. -/
theorem rootPres_findRoot {p q rk : ℕ → ℕ} {n : ℕ} (hcl : UFClosed n p)
    (hrk : RankUp n p rk) (hpres : RootPres p q)
    (hclq : UFClosed n q) (hrkq : RankUp n q rk) :
    ∀ z, findRoot n q z = findRoot n p z := by
  intro z
  have hall := depth_bound hcl hrk
  have hallq := depth_bound hclq hrkq
  obtain ⟨k, -, hfixk⟩ := hall z
  exact root_unique hallq (rootPres_isRootOf hpres hall k z hfixk)

/-- Combined specification of one compressing find with full fuel: the
invariants survive, every root value is unchanged, and the returned value
is the root. -/
theorem findCompress_spec {n : ℕ} {p rk : ℕ → ℕ} (hcl : UFClosed n p)
    (hrk : RankUp n p rk) (x : ℕ) :
    UFClosed n (findCompress n p x).2 ∧ RankUp n (findCompress n p x).2 rk ∧
    (∀ z, findRoot n (findCompress n p x).2 z = findRoot n p z) ∧
    (findCompress n p x).1 = findRoot n p x := by
  have hall := depth_bound hcl hrk
  have hpres := findCompress_snd (hall x)
  have hclq := rootPres_closed hcl hpres
  have hrkq := rootPres_rankup hcl hrk hpres
  exact ⟨hclq, hrkq, rootPres_findRoot hcl hrk hpres hclq hrkq, findCompress_fst p n x⟩

/-- Linking leaves a fixpoint-rooted chain at its (possibly redirected)
root. -/
theorem link_isRootOf_of_fix {p : ℕ → ℕ} {n r1 r2 z : ℕ}
    (h1 : p r1 = r1) (hne : r1 ≠ r2) (hzf : p z = z) :
    IsRootOf (fun w => if w = r2 then r1 else p w) z
      (if findRoot n p z = r2 then r1 else findRoot n p z) := by
  rw [findRoot_of_fix p z hzf]
  by_cases hz2 : z = r2
  · subst hz2
    rw [if_pos rfl]
    refine ⟨1, ?_, ?_⟩
    · simp only [Function.iterate_one, eq_self_iff_true, if_true]
    · simp only [if_neg hne]
      exact h1
  · rw [if_neg hz2]
    exact ⟨0, rfl, by simp only [if_neg hz2]; exact hzf⟩

/-- Linking one root under another redirects exactly the chains that ended
at the redirected root. -/
theorem link_isRootOf {p : ℕ → ℕ} {n r1 r2 : ℕ} (hall : ∀ w, FixWithin p w n)
    (h1 : p r1 = r1) (h2 : p r2 = r2) (hne : r1 ≠ r2) :
    ∀ (k z : ℕ), p (p^[k] z) = p^[k] z →
      IsRootOf (fun w => if w = r2 then r1 else p w) z
        (if findRoot n p z = r2 then r1 else findRoot n p z) := by
  intro k
  induction k with
  | zero =>
      intro z hfix
      simp only [Function.iterate_zero, id_eq] at hfix
      exact link_isRootOf_of_fix h1 hne hfix
  | succ k ih =>
      intro z hfix
      by_cases hzf : p z = z
      · exact link_isRootOf_of_fix h1 hne hzf
      · have hz2 : z ≠ r2 := by
          intro h
          apply hzf
          rw [h]
          exact h2
        have hstep : p (p^[k] (p z)) = p^[k] (p z) := by
          rw [← Function.iterate_succ_apply]
          exact hfix
        obtain ⟨m, hit, hfx⟩ := ih (p z) hstep
        have hroot : findRoot n p (p z) = findRoot n p z :=
          (findRoot_parent_eq hall).symm
        rw [← hroot]
        refine ⟨m + 1, ?_, hfx⟩
        rw [Function.iterate_succ_apply]
        show (fun w => if w = r2 then r1 else p w)^[m]
            ((fun w => if w = r2 then r1 else p w) z) = _
        simp only [if_neg hz2]
        exact hit

/-- Linking two in-range roots keeps the parent map closed. -/
theorem link_closed {p : ℕ → ℕ} {n r1 r2 : ℕ} (hcl : UFClosed n p)
    (hr1 : r1 < n) (hr2 : r2 < n) :
    UFClosed n (fun w => if w = r2 then r1 else p w) := by
  intro x
  constructor
  · intro hx
    by_cases hx2 : x = r2
    · simp only [if_pos hx2]
      exact hr1
    · simp only [if_neg hx2]
      exact (hcl x).1 hx
  · intro hx
    have hx2 : x ≠ r2 := by omega
    simp only [if_neg hx2]
    exact (hcl x).2 hx

/-- Linking under a strictly higher-ranked root keeps the rank invariant,
for any rank map that grows at most at the surviving root. -/
theorem link_rankup {p rk rk2 : ℕ → ℕ} {n r1 r2 : ℕ}
    (hrk : RankUp n p rk) (h1 : p r1 = r1)
    (hmono : ∀ z, rk z ≤ rk2 z) (heq : ∀ z, z ≠ r1 → rk2 z = rk z)
    (hlink : rk2 r2 < rk2 r1) :
    RankUp n (fun w => if w = r2 then r1 else p w) rk2 := by
  intro z hz hne
  by_cases hz2 : z = r2
  · subst hz2
    simp only [if_pos rfl]
    exact hlink
  · simp only [if_neg hz2] at hne ⊢
    have hz1 : z ≠ r1 := by
      intro h
      apply hne
      rw [h]
      exact h1
    calc rk2 z = rk z := heq z hz1
    _ < rk (p z) := hrk z hz hne
    _ ≤ rk2 (p z) := hmono (p z)

/-- `union` when both arguments already share a root: only the two
compressions happen. -/
theorem union_eq_of_eq {n : ℕ} {uf : UF} {x y : ℕ}
    (h : (findCompress n uf.parent x).1 =
      (findCompress n (findCompress n uf.parent x).2 y).1) :
    UF.union n uf x y =
      { parent := (findCompress n (findCompress n uf.parent x).2 y).2,
        rank := uf.rank } := by
  simp only [UF.union]
  rw [if_pos h]

/-- `union` on distinct roots: link by rank, bumping the surviving rank on
ties. -/
theorem union_eq_of_ne {n : ℕ} {uf : UF} {x y : ℕ}
    (h : ¬ (findCompress n uf.parent x).1 =
      (findCompress n (findCompress n uf.parent x).2 y).1) :
    UF.union n uf x y =
      { parent := fun z => if z = ufRy' n uf x y then ufRx' n uf x y
          else ufP2 n uf x y z,
        rank := if uf.rank (ufRx' n uf x y) = uf.rank (ufRy' n uf x y) then
            fun z => if z = ufRx' n uf x y then uf.rank (ufRx' n uf x y) + 1
              else uf.rank z
          else uf.rank } := by
  simp only [UF.union, ufRx', ufRy', ufP2, ufRy, ufRx, ufP1]
  rw [if_neg h]

/-- Full specification of `UnionFind.union`: the forest invariants are
preserved, existing clusters never split, and the two arguments end up
with a common root. -/
theorem union_spec {n : ℕ} {uf : UF} (hcl : UFClosed n uf.parent)
    (hrk : RankUp n uf.parent uf.rank) {x y : ℕ} (hx : x < n) (hy : y < n) :
    (UFClosed n (UF.union n uf x y).parent ∧
     RankUp n (UF.union n uf x y).parent (UF.union n uf x y).rank) ∧
    (∀ a b, findRoot n uf.parent a = findRoot n uf.parent b →
      findRoot n (UF.union n uf x y).parent a =
        findRoot n (UF.union n uf x y).parent b) ∧
    findRoot n (UF.union n uf x y).parent x =
      findRoot n (UF.union n uf x y).parent y := by
  obtain ⟨hcl1, hrk1, hroots1, hrx⟩ := findCompress_spec hcl hrk x
  obtain ⟨hcl2, hrk2, hroots2a, hry⟩ := findCompress_spec hcl1 hrk1 y
  have hrxv : ufRx n uf x = findRoot n uf.parent x := hrx
  have hryv : ufRy n uf x y = findRoot n uf.parent y := hry.trans (hroots1 y)
  have hP2roots : ∀ z, findRoot n (ufP2 n uf x y) z = findRoot n uf.parent z :=
    fun z => (hroots2a z).trans (hroots1 z)
  by_cases hxy : (findCompress n uf.parent x).1 =
      (findCompress n (findCompress n uf.parent x).2 y).1
  · rw [union_eq_of_eq hxy]
    refine ⟨⟨hcl2, hrk2⟩, ?_, ?_⟩
    · intro a b hab
      show findRoot n (ufP2 n uf x y) a = findRoot n (ufP2 n uf x y) b
      rw [hP2roots a, hP2roots b]
      exact hab
    · show findRoot n (ufP2 n uf x y) x = findRoot n (ufP2 n uf x y) y
      rw [hP2roots x, hP2roots y, ← hrxv, ← hryv]
      exact hxy
  · rw [union_eq_of_ne hxy]
    have hall := depth_bound hcl hrk
    have hall1 := depth_bound hcl1 hrk1
    have hall2 := depth_bound hcl2 hrk2
    have pres1 : RootPres uf.parent (ufP1 n uf x) := findCompress_snd (hall x)
    have pres2 : RootPres (ufP1 n uf x) (ufP2 n uf x y) :=
      findCompress_snd (hall1 y)
    have hne2 : ufRx n uf x ≠ ufRy n uf x y := hxy
    have hfixX : ufP2 n uf x y (ufRx n uf x) = ufRx n uf x := by
      have h0 : uf.parent (findRoot n uf.parent x) = findRoot n uf.parent x :=
        findRoot_is_fix (hall x)
      rw [hrxv]
      exact rootPres_fix pres2 (rootPres_fix pres1 h0)
    have hfixY : ufP2 n uf x y (ufRy n uf x y) = ufRy n uf x y := by
      have h0 : ufP1 n uf x (findRoot n (ufP1 n uf x) y) =
          findRoot n (ufP1 n uf x) y := findRoot_is_fix (hall1 y)
      have he : ufRy n uf x y = findRoot n (ufP1 n uf x) y := hry
      rw [he]
      exact rootPres_fix pres2 h0
    have hrxlt : ufRx n uf x < n := by
      rw [hrxv]
      exact findRoot_lt hcl hx
    have hrylt : ufRy n uf x y < n := by
      rw [hryv]
      exact findRoot_lt hcl hy
    have hpair : (¬ uf.rank (ufRx n uf x) < uf.rank (ufRy n uf x y) ∧
          ufRx' n uf x y = ufRx n uf x ∧ ufRy' n uf x y = ufRy n uf x y) ∨
        (uf.rank (ufRx n uf x) < uf.rank (ufRy n uf x y) ∧
          ufRx' n uf x y = ufRy n uf x y ∧ ufRy' n uf x y = ufRx n uf x) := by
      simp only [ufRx', ufRy']
      split_ifs with h
      · exact Or.inr ⟨h, rfl, rfl⟩
      · exact Or.inl ⟨h, rfl, rfl⟩
    have hfixX' : ufP2 n uf x y (ufRx' n uf x y) = ufRx' n uf x y := by
      rcases hpair with ⟨-, h1, -⟩ | ⟨-, h1, -⟩
      · rw [h1]; exact hfixX
      · rw [h1]; exact hfixY
    have hfixY' : ufP2 n uf x y (ufRy' n uf x y) = ufRy' n uf x y := by
      rcases hpair with ⟨-, -, h2⟩ | ⟨-, -, h2⟩
      · rw [h2]; exact hfixY
      · rw [h2]; exact hfixX
    have hrxlt' : ufRx' n uf x y < n := by
      rcases hpair with ⟨-, h1, -⟩ | ⟨-, h1, -⟩
      · rw [h1]; exact hrxlt
      · rw [h1]; exact hrylt
    have hrylt' : ufRy' n uf x y < n := by
      rcases hpair with ⟨-, -, h2⟩ | ⟨-, -, h2⟩
      · rw [h2]; exact hrylt
      · rw [h2]; exact hrxlt
    have hne' : ufRx' n uf x y ≠ ufRy' n uf x y := by
      rcases hpair with ⟨-, h1, h2⟩ | ⟨-, h1, h2⟩
      · rw [h1, h2]; exact hne2
      · rw [h1, h2]; exact (Ne.symm hne2)
    have hlinkle : uf.rank (ufRy' n uf x y) ≤ uf.rank (ufRx' n uf x y) := by
      rcases hpair with ⟨hc, h1, h2⟩ | ⟨hc, h1, h2⟩
      · rw [h1, h2]; omega
      · rw [h1, h2]; omega
    have hclq : UFClosed n (fun z => if z = ufRy' n uf x y then ufRx' n uf x y
        else ufP2 n uf x y z) := link_closed hcl2 hrxlt' hrylt'
    have hrkuniv : RankUp n (fun z => if z = ufRy' n uf x y then ufRx' n uf x y
        else ufP2 n uf x y z) (fun z => if z = ufRx' n uf x y then
          uf.rank (ufRx' n uf x y) + 1 else uf.rank z) := by
      refine link_rankup hrk2 hfixX' ?_ ?_ ?_
      · intro z
        by_cases hz : z = ufRx' n uf x y
        · rw [hz]
          simp only [eq_self_iff_true, if_true]
          omega
        · simp only [if_neg hz]
          exact le_refl _
      · intro z hz
        simp only [if_neg hz]
      · simp only [if_neg (Ne.symm hne'), eq_self_iff_true, if_true]
        omega
    have hallq := depth_bound hclq hrkuniv
    have hrootq : ∀ z, findRoot n (fun w => if w = ufRy' n uf x y then
          ufRx' n uf x y else ufP2 n uf x y w) z =
        if findRoot n uf.parent z = ufRy' n uf x y then ufRx' n uf x y
        else findRoot n uf.parent z := by
      intro z
      obtain ⟨k, -, hfixk⟩ := hall2 z
      have hIs := link_isRootOf hall2 hfixX' hfixY' hne' k z hfixk
      have hu := root_unique hallq hIs
      have hz2 : ∀ w, findRoot n (findCompress n (findCompress n uf.parent x).2 y).2 w =
          findRoot n uf.parent w := hP2roots
      rw [hu, hz2 z]
    refine ⟨⟨hclq, ?_⟩, ?_, ?_⟩
    · show RankUp n (fun z => if z = ufRy' n uf x y then ufRx' n uf x y
        else ufP2 n uf x y z)
        (if uf.rank (ufRx' n uf x y) = uf.rank (ufRy' n uf x y) then
          fun z => if z = ufRx' n uf x y then uf.rank (ufRx' n uf x y) + 1
            else uf.rank z
        else uf.rank)
      by_cases htie : uf.rank (ufRx' n uf x y) = uf.rank (ufRy' n uf x y)
      · rw [if_pos htie]
        exact hrkuniv
      · rw [if_neg htie]
        refine link_rankup hrk2 hfixX' (fun z => le_refl _) (fun z hz => rfl) ?_
        omega
    · intro a b hab
      show findRoot n (fun z => if z = ufRy' n uf x y then ufRx' n uf x y
        else ufP2 n uf x y z) a = _
      rw [hrootq a, hrootq b, hab]
    · show findRoot n (fun z => if z = ufRy' n uf x y then ufRx' n uf x y
        else ufP2 n uf x y z) x = _
      rw [hrootq x, hrootq y, ← hrxv, ← hryv]
      rcases hpair with ⟨-, h1, h2⟩ | ⟨-, h1, h2⟩
      · rw [h1, h2, if_neg hne2, if_pos rfl]
      · rw [h1, h2, if_pos rfl, if_neg (Ne.symm hne2)]

/-- Membership in the merge loop's ordered pair list. -/
theorem mem_allPairs {n i j : ℕ} : (i, j) ∈ allPairs n ↔ i < j ∧ j < n := by
  simp only [allPairs, List.mem_flatMap, List.mem_map, List.mem_range,
    List.mem_range'_1, Prod.mk.injEq]
  constructor
  · rintro ⟨a, ha, b, ⟨hb1, hb2⟩, rfl, rfl⟩
    omega
  · intro h
    exact ⟨i, by omega, j, ⟨by omega, by omega⟩, rfl, rfl⟩

/-- `clusterUF` as a fold of `mergeStep`. -/
theorem clusterUF_eq (eps : List Endpoint) :
    clusterUF eps = (allPairs eps.length).foldl (mergeStep eps) UF.init := rfl

/-- The freshly initialised union-find state satisfies the invariants. -/
theorem init_inv (n : ℕ) :
    UFClosed n UF.init.parent ∧ RankUp n UF.init.parent UF.init.rank := by
  constructor
  · intro x
    exact ⟨fun h => h, fun _ => rfl⟩
  · intro x _ hne
    exact absurd rfl hne

/-- Folding the merge loop over in-range pairs preserves the invariants
and never splits an existing cluster. -/
theorem foldMerge_spec (eps : List Endpoint) :
    ∀ (l : List (ℕ × ℕ)) (uf : UF),
      (∀ ij ∈ l, ij.1 < eps.length ∧ ij.2 < eps.length) →
      UFClosed eps.length uf.parent → RankUp eps.length uf.parent uf.rank →
      (UFClosed eps.length (l.foldl (mergeStep eps) uf).parent ∧
       RankUp eps.length (l.foldl (mergeStep eps) uf).parent
         (l.foldl (mergeStep eps) uf).rank) ∧
      ∀ a b, findRoot eps.length uf.parent a = findRoot eps.length uf.parent b →
        findRoot eps.length (l.foldl (mergeStep eps) uf).parent a =
          findRoot eps.length (l.foldl (mergeStep eps) uf).parent b := by
  intro l
  induction l with
  | nil =>
      intro uf hl hcl hrk
      exact ⟨⟨hcl, hrk⟩, fun a b hab => hab⟩
  | cons ij l ih =>
      intro uf hl hcl hrk
      rw [List.foldl_cons]
      have hij := hl ij (List.mem_cons_self ij l)
      have hl2 : ∀ pq ∈ l, pq.1 < eps.length ∧ pq.2 < eps.length :=
        fun pq hpq => hl pq (List.mem_cons_of_mem ij hpq)
      by_cases hc : closePair eps ij.1 ij.2
      · have hstep : mergeStep eps uf ij = UF.union eps.length uf ij.1 ij.2 := by
          rw [mergeStep, if_pos hc]
        rw [hstep]
        obtain ⟨⟨hclu, hrku⟩, hpres, -⟩ := union_spec hcl hrk hij.1 hij.2
        obtain ⟨hinv2, hpres2⟩ := ih (UF.union eps.length uf ij.1 ij.2) hl2 hclu hrku
        exact ⟨hinv2, fun a b hab => hpres2 a b (hpres a b hab)⟩
      · have hstep : mergeStep eps uf ij = uf := by
          rw [mergeStep, if_neg hc]
        rw [hstep]
        exact ih uf hl2 hcl hrk

/-- Every close pair processed by the merge loop ends with a common root. -/
theorem foldMerge_connects (eps : List Endpoint) :
    ∀ (l : List (ℕ × ℕ)) (uf : UF),
      (∀ ij ∈ l, ij.1 < eps.length ∧ ij.2 < eps.length) →
      UFClosed eps.length uf.parent → RankUp eps.length uf.parent uf.rank →
      ∀ i j, (i, j) ∈ l → closePair eps i j = true →
        findRoot eps.length (l.foldl (mergeStep eps) uf).parent i =
          findRoot eps.length (l.foldl (mergeStep eps) uf).parent j := by
  intro l
  induction l with
  | nil =>
      intro uf _ _ _ i j hmem _
      exact absurd hmem (List.not_mem_nil _)
  | cons pq l ih =>
      intro uf hl hcl hrk i j hmem hclose
      rw [List.foldl_cons]
      have hpq := hl pq (List.mem_cons_self pq l)
      have hl2 : ∀ ij ∈ l, ij.1 < eps.length ∧ ij.2 < eps.length :=
        fun ij hij => hl ij (List.mem_cons_of_mem pq hij)
      rcases List.mem_cons.mp hmem with heq | hmem2
      · obtain ⟨rfl, rfl⟩ : pq.1 = i ∧ pq.2 = j := by
          rw [← heq]
          exact ⟨rfl, rfl⟩
        have hstep : mergeStep eps uf pq = UF.union eps.length uf pq.1 pq.2 := by
          rw [mergeStep, if_pos hclose]
        rw [hstep]
        obtain ⟨⟨hclu, hrku⟩, -, hconn⟩ := union_spec hcl hrk hpq.1 hpq.2
        obtain ⟨-, hpres2⟩ :=
          foldMerge_spec eps l (UF.union eps.length uf pq.1 pq.2) hl2 hclu hrku
        exact hpres2 pq.1 pq.2 hconn
      · by_cases hc : closePair eps pq.1 pq.2
        · have hstep : mergeStep eps uf pq = UF.union eps.length uf pq.1 pq.2 := by
            rw [mergeStep, if_pos hc]
          rw [hstep]
          obtain ⟨⟨hclu, hrku⟩, -, -⟩ := union_spec hcl hrk hpq.1 hpq.2
          exact ih _ hl2 hclu hrku i j hmem2 hclose
        · have hstep : mergeStep eps uf pq = uf := by
            rw [mergeStep, if_neg hc]
          rw [hstep]
          exact ih uf hl2 hcl hrk i j hmem2 hclose

/-- The final clustering state is a wellformed union-by-rank forest. -/
theorem clusterUF_inv (eps : List Endpoint) :
    UFClosed eps.length (clusterUF eps).parent ∧
    RankUp eps.length (clusterUF eps).parent (clusterUF eps).rank := by
  rw [clusterUF_eq]
  have hb : ∀ ij ∈ allPairs eps.length, ij.1 < eps.length ∧ ij.2 < eps.length := by
    rintro ⟨i, j⟩ hij
    have h := mem_allPairs.mp hij
    exact ⟨by omega, by omega⟩
  exact (foldMerge_spec eps (allPairs eps.length) UF.init hb
    (init_inv eps.length).1 (init_inv eps.length).2).1

/-- Any close ordered pair of endpoint indices shares a root after the
merge loop. -/
theorem clusterUF_connects (eps : List Endpoint) {i j : ℕ}
    (hij : i < j) (hj : j < eps.length) (hclose : closePair eps i j = true) :
    findRoot eps.length (clusterUF eps).parent i =
      findRoot eps.length (clusterUF eps).parent j := by
  rw [clusterUF_eq]
  have hb : ∀ ij ∈ allPairs eps.length, ij.1 < eps.length ∧ ij.2 < eps.length := by
    rintro ⟨a, b⟩ hab
    have h := mem_allPairs.mp hab
    exact ⟨by omega, by omega⟩
  exact foldMerge_connects eps (allPairs eps.length) UF.init hb
    (init_inv eps.length).1 (init_inv eps.length).2 i j
    (mem_allPairs.mpr ⟨hij, hj⟩) hclose

/-- The squared distance is symmetric. -/
theorem distSq_comm (p1 p2 : Endpoint) : distSq p1 p2 = distSq p2 p1 := by
  simp only [distSq]
  ring

/-- Any two close endpoints (in either order) share a root. -/
theorem close_same_root (eps : List Endpoint) {a b : ℕ}
    (ha : a < eps.length) (hb : b < eps.length)
    (hd : distSq (epAt eps a) (epAt eps b) < SNAP_RADIUS ^ 2) :
    findRoot eps.length (clusterUF eps).parent a =
      findRoot eps.length (clusterUF eps).parent b := by
  rcases lt_trichotomy a b with h | h | h
  · refine clusterUF_connects eps h hb ?_
    rw [closePair]
    exact decide_eq_true hd
  · rw [h]
  · refine (clusterUF_connects eps h ha ?_).symm
    rw [closePair]
    refine decide_eq_true ?_
    rw [distSq_comm]
    exact hd

/-- The grouping loop returns exactly the root of every endpoint index,
compression threading notwithstanding. -/
theorem computeRoots_fold {n : ℕ} (p0 rk : ℕ → ℕ) :
    ∀ (l : List ℕ) (rs : List ℕ) (q : ℕ → ℕ),
      UFClosed n q → RankUp n q rk → (∀ z, findRoot n q z = findRoot n p0 z) →
      (l.foldl (fun acc i =>
        let fc := findCompress n acc.2 i
        (acc.1 ++ [fc.1], fc.2)) (rs, q)).1 = rs ++ l.map (findRoot n p0) := by
  intro l
  induction l with
  | nil =>
      intro rs q _ _ _
      simp
  | cons i l ih =>
      intro rs q hcl hrk hq
      rw [List.foldl_cons]
      show (l.foldl (fun acc i =>
        let fc := findCompress n acc.2 i
        (acc.1 ++ [fc.1], fc.2))
        (rs ++ [(findCompress n q i).1], (findCompress n q i).2)).1 = _
      obtain ⟨hcl2, hrk2, hroots2, hfst⟩ := findCompress_spec hcl hrk i
      rw [ih (rs ++ [(findCompress n q i).1]) (findCompress n q i).2 hcl2 hrk2
        (fun z => (hroots2 z).trans (hq z))]
      rw [hfst, hq i]
      simp

/-- The collected root list is the pointwise root of `0..n-1`. -/
theorem rootsListOf_map (eps : List Endpoint) :
    rootsListOf eps = (List.range eps.length).map
      (findRoot eps.length (clusterUF eps).parent) := by
  rw [rootsListOf, computeRoots]
  rw [computeRoots_fold (clusterUF eps).parent (clusterUF eps).rank
    (List.range eps.length) [] (clusterUF eps).parent
    (clusterUF_inv eps).1 (clusterUF_inv eps).2 (fun z => rfl)]
  simp

/-- Indexing the root list of an in-range endpoint. -/
theorem rootsListOf_getD (eps : List Endpoint) {i : ℕ} (hi : i < eps.length) :
    (rootsListOf eps).getD i 0 =
      findRoot eps.length (clusterUF eps).parent i := by
  rw [rootsListOf_map]
  have hlen : i < ((List.range eps.length).map
      (findRoot eps.length (clusterUF eps).parent)).length := by
    simpa using hi
  rw [List.getD_eq_getElem _ _ hlen]
  simp

/-- C2: endpoint clustering is transitive: if endpoint `a` is within the
snap radius of endpoint `b` and `b` is within the snap radius of endpoint
`c`, then all three are assigned to the same node (the same cluster index),
regardless of the distance between `a` and `c`. -/
theorem cluster_transitivity (eps : List Endpoint) (a b c : ℕ)
    (ha : a < eps.length) (hb : b < eps.length) (hc : c < eps.length)
    (hab : distSq (epAt eps a) (epAt eps b) < SNAP_RADIUS ^ 2)
    (hbc : distSq (epAt eps b) (epAt eps c) < SNAP_RADIUS ^ 2) :
    endpointNodeIndex eps a = endpointNodeIndex eps b ∧
    endpointNodeIndex eps b = endpointNodeIndex eps c := by
  have h1 : (rootsListOf eps).getD a 0 = (rootsListOf eps).getD b 0 := by
    rw [rootsListOf_getD eps ha, rootsListOf_getD eps hb]
    exact close_same_root eps ha hb hab
  have h2 : (rootsListOf eps).getD b 0 = (rootsListOf eps).getD c 0 := by
    rw [rootsListOf_getD eps hb, rootsListOf_getD eps hc]
    exact close_same_root eps hb hc hbc
  constructor
  · rw [endpointNodeIndex, endpointNodeIndex, h1]
  · rw [endpointNodeIndex, endpointNodeIndex, h2]

/-- Witness for C2: A=(0,0), B=(5,0), C=(14,0) with snap radius 10 —
A–B and B–C are close, A–C is not, yet all three endpoints get the same
node index. -/
theorem cluster_transitivity_witness :
    (0 : ℕ) < List.length ([⟨0, 0, "s1", true⟩, ⟨5, 0, "s1", false⟩, ⟨14, 0, "s2", true⟩] : List Endpoint) ∧
    (1 : ℕ) < List.length ([⟨0, 0, "s1", true⟩, ⟨5, 0, "s1", false⟩, ⟨14, 0, "s2", true⟩] : List Endpoint) ∧
    (2 : ℕ) < List.length ([⟨0, 0, "s1", true⟩, ⟨5, 0, "s1", false⟩, ⟨14, 0, "s2", true⟩] : List Endpoint) ∧
    distSq (epAt [⟨0, 0, "s1", true⟩, ⟨5, 0, "s1", false⟩, ⟨14, 0, "s2", true⟩] 0) (epAt [⟨0, 0, "s1", true⟩, ⟨5, 0, "s1", false⟩, ⟨14, 0, "s2", true⟩] 1) < SNAP_RADIUS ^ 2 ∧
    distSq (epAt [⟨0, 0, "s1", true⟩, ⟨5, 0, "s1", false⟩, ⟨14, 0, "s2", true⟩] 1) (epAt [⟨0, 0, "s1", true⟩, ⟨5, 0, "s1", false⟩, ⟨14, 0, "s2", true⟩] 2) < SNAP_RADIUS ^ 2 ∧
    ¬ distSq (epAt [⟨0, 0, "s1", true⟩, ⟨5, 0, "s1", false⟩, ⟨14, 0, "s2", true⟩] 0) (epAt [⟨0, 0, "s1", true⟩, ⟨5, 0, "s1", false⟩, ⟨14, 0, "s2", true⟩] 2) < SNAP_RADIUS ^ 2 ∧
    (endpointNodeIndex [⟨0, 0, "s1", true⟩, ⟨5, 0, "s1", false⟩, ⟨14, 0, "s2", true⟩] 0 = endpointNodeIndex [⟨0, 0, "s1", true⟩, ⟨5, 0, "s1", false⟩, ⟨14, 0, "s2", true⟩] 1 ∧
     endpointNodeIndex [⟨0, 0, "s1", true⟩, ⟨5, 0, "s1", false⟩, ⟨14, 0, "s2", true⟩] 1 = endpointNodeIndex [⟨0, 0, "s1", true⟩, ⟨5, 0, "s1", false⟩, ⟨14, 0, "s2", true⟩] 2) := by
  have h0 : (0 : ℕ) < List.length ([⟨0, 0, "s1", true⟩, ⟨5, 0, "s1", false⟩, ⟨14, 0, "s2", true⟩] : List Endpoint) := by decide
  have h1 : (1 : ℕ) < List.length ([⟨0, 0, "s1", true⟩, ⟨5, 0, "s1", false⟩, ⟨14, 0, "s2", true⟩] : List Endpoint) := by decide
  have h2 : (2 : ℕ) < List.length ([⟨0, 0, "s1", true⟩, ⟨5, 0, "s1", false⟩, ⟨14, 0, "s2", true⟩] : List Endpoint) := by decide
  have hab : distSq (epAt [⟨0, 0, "s1", true⟩, ⟨5, 0, "s1", false⟩, ⟨14, 0, "s2", true⟩] 0) (epAt [⟨0, 0, "s1", true⟩, ⟨5, 0, "s1", false⟩, ⟨14, 0, "s2", true⟩] 1) < SNAP_RADIUS ^ 2 := by
    norm_num [distSq, epAt, SNAP_RADIUS, List.getD_cons_zero, List.getD_cons_succ]
  have hbc : distSq (epAt [⟨0, 0, "s1", true⟩, ⟨5, 0, "s1", false⟩, ⟨14, 0, "s2", true⟩] 1) (epAt [⟨0, 0, "s1", true⟩, ⟨5, 0, "s1", false⟩, ⟨14, 0, "s2", true⟩] 2) < SNAP_RADIUS ^ 2 := by
    norm_num [distSq, epAt, SNAP_RADIUS, List.getD_cons_zero, List.getD_cons_succ]
  have hac : ¬ distSq (epAt [⟨0, 0, "s1", true⟩, ⟨5, 0, "s1", false⟩, ⟨14, 0, "s2", true⟩] 0) (epAt [⟨0, 0, "s1", true⟩, ⟨5, 0, "s1", false⟩, ⟨14, 0, "s2", true⟩] 2) < SNAP_RADIUS ^ 2 := by
    norm_num [distSq, epAt, SNAP_RADIUS, List.getD_cons_zero, List.getD_cons_succ]
  exact ⟨h0, h1, h2, hab, hbc, hac,
    cluster_transitivity [⟨0, 0, "s1", true⟩, ⟨5, 0, "s1", false⟩, ⟨14, 0, "s2", true⟩] 0 1 2 h0 h1 h2 hab hbc⟩

/-- `orderedInsert` commutes with mapping when the order is reflected. -/
theorem orderedInsert_map {A B : Type} (f : A → B) (r : A → A → Prop)
    (r2 : B → B → Prop) [DecidableRel r] [DecidableRel r2]
    (hrel : ∀ a b, r a b ↔ r2 (f a) (f b)) (a : A) :
    ∀ l : List A,
      (List.orderedInsert r a l).map f = List.orderedInsert r2 (f a) (l.map f) := by
  intro l
  induction l with
  | nil => rfl
  | cons b t ih =>
      rw [List.orderedInsert, List.map_cons, List.orderedInsert]
      by_cases h : r a b
      · rw [if_pos h, if_pos ((hrel a b).mp h)]
        simp
      · rw [if_neg h, if_neg (fun h2 => h ((hrel a b).mpr h2))]
        rw [List.map_cons, ih]

/-- `insertionSort` commutes with mapping when the order is reflected. -/
theorem insertionSort_map {A B : Type} (f : A → B) (r : A → A → Prop)
    (r2 : B → B → Prop) [DecidableRel r] [DecidableRel r2]
    (hrel : ∀ a b, r a b ↔ r2 (f a) (f b)) :
    ∀ l : List A,
      (List.insertionSort r l).map f = List.insertionSort r2 (l.map f) := by
  intro l
  induction l with
  | nil => rfl
  | cons a t ih =>
      rw [List.insertionSort, List.map_cons, List.insertionSort, ← ih,
        orderedInsert_map f r r2 hrel]

/-- Two sorted pair lists that are permutations of each other and have
duplicate-free keys are equal. -/
theorem sorted_perm_eq :
    ∀ {l1 l2 : List (String × ℕ)}, l1.Perm l2 →
      l1.Sorted (fun p q => p.1 ≤ q.1) → l2.Sorted (fun p q => p.1 ≤ q.1) →
      (l1.map Prod.fst).Nodup → l1 = l2 := by
  intro l1
  induction l1 with
  | nil =>
      intro l2 hp _ _ _
      exact (hp.symm.eq_nil).symm
  | cons a t ih =>
      intro l2 hp h1 h2 hnd
      cases l2 with
      | nil => exact absurd hp.eq_nil (by simp)
      | cons b t2 =>
          have hmem_a : a ∈ b :: t2 := hp.subset (List.mem_cons_self a t)
          have hmem_b : b ∈ a :: t := hp.symm.subset (List.mem_cons_self b t2)
          have hba : b.1 ≤ a.1 := by
            rcases List.mem_cons.mp hmem_a with h | h
            · rw [h]
            · exact (List.sorted_cons.mp h2).1 a h
          have hab : a.1 ≤ b.1 := by
            rcases List.mem_cons.mp hmem_b with h | h
            · rw [h]
            · exact (List.sorted_cons.mp h1).1 b h
          have hkey : a.1 = b.1 := le_antisymm hab hba
          have hb_eq : b = a := by
            rcases List.mem_cons.mp hmem_b with h | h
            · exact h
            · exfalso
              have : a.1 ∈ t.map Prod.fst := by
                rw [hkey]
                exact List.mem_map_of_mem Prod.fst h
              exact (List.nodup_cons.mp (by simpa using hnd)).1 this
          subst hb_eq
          have htail := ih (hp.cons_inv) (List.sorted_cons.mp h1).2
            (List.sorted_cons.mp h2).2 (List.nodup_cons.mp (by simpa using hnd)).2
          rw [htail]

/-- Order invariance of the version data: the hashed string depends only
on the (id, point count) multiset when ids are duplicate-free. -/
theorem graphVersionData_perm (segs1 segs2 : List Seg)
    (hperm : (segs1.map fun s => (s.id, s.points.length)).Perm
      (segs2.map fun s => (s.id, s.points.length)))
    (hnd : (segs1.map Seg.id).Nodup) :
    graphVersionData segs1 = graphVersionData segs2 := by
  haveI : IsTotal Seg (fun a b => a.id ≤ b.id) := ⟨fun a b => le_total a.id b.id⟩
  haveI : IsTrans Seg (fun a b => a.id ≤ b.id) := ⟨fun a b c => le_trans⟩
  rw [graphVersionData, graphVersionData]
  have hmap : ∀ segs : List Seg,
      (List.insertionSort (fun a b => a.id ≤ b.id) segs).map
        (fun s => s.id ++ ":" ++ toString s.points.length) =
      (List.insertionSort (fun p q : String × ℕ => p.1 ≤ q.1)
        (segs.map fun s => (s.id, s.points.length))).map
        (fun p => p.1 ++ ":" ++ toString p.2) := by
    intro segs
    rw [← insertionSort_map (fun s : Seg => (s.id, s.points.length))
      (fun a b => a.id ≤ b.id) (fun p q => p.1 ≤ q.1) (fun a b => Iff.rfl) segs]
    rw [List.map_map]
    rfl
  rw [hmap segs1, hmap segs2]
  have hsorted : ∀ l : List (String × ℕ),
      (List.insertionSort (fun p q : String × ℕ => p.1 ≤ q.1) l).Sorted
        (fun p q => p.1 ≤ q.1) := by
    intro l
    haveI : IsTotal (String × ℕ) (fun p q => p.1 ≤ q.1) :=
      ⟨fun a b => le_total a.1 b.1⟩
    haveI : IsTrans (String × ℕ) (fun p q => p.1 ≤ q.1) :=
      ⟨fun a b c => le_trans⟩
    exact List.sorted_insertionSort _ l
  have hp : (List.insertionSort (fun p q : String × ℕ => p.1 ≤ q.1)
      (segs1.map fun s => (s.id, s.points.length))).Perm
      (List.insertionSort (fun p q : String × ℕ => p.1 ≤ q.1)
        (segs2.map fun s => (s.id, s.points.length))) :=
    (List.perm_insertionSort _ _).trans
      (hperm.trans (List.perm_insertionSort _ _).symm)
  have hnds : ((List.insertionSort (fun p q : String × ℕ => p.1 ≤ q.1)
      (segs1.map fun s => (s.id, s.points.length))).map Prod.fst).Nodup := by
    have hper2 : ((List.insertionSort (fun p q : String × ℕ => p.1 ≤ q.1)
        (segs1.map fun s => (s.id, s.points.length))).map Prod.fst).Perm
        ((segs1.map fun s => (s.id, s.points.length)).map Prod.fst) :=
      (List.perm_insertionSort _ _).map Prod.fst
    rw [hper2.nodup_iff]
    rw [List.map_map]
    exact hnd
  rw [sorted_perm_eq hp (hsorted _) (hsorted _) hnds]

/-- `digitChar` of a decimal digit decodes back to the digit. -/
theorem digitVal_digitChar : ∀ d, d < 10 → digitVal (Nat.digitChar d) = d := by
  decide

/-- Folding the decimal decoder over `toDigitsCore` realises `pushDigits`. -/
theorem toDigitsCore_foldl :
    ∀ (fuel n : ℕ), n < fuel → ∀ (ds : List Char) (a : ℕ),
      (Nat.toDigitsCore 10 fuel n ds).foldl (fun a c => 10 * a + digitVal c) a =
        ds.foldl (fun a c => 10 * a + digitVal c) (pushDigits a n) := by
  intro fuel
  induction fuel with
  | zero =>
      intro n hn
      exact absurd hn (Nat.not_lt_zero n)
  | succ fuel ih =>
      intro n hn ds a
      by_cases h : n / 10 = 0
      · have hstep : Nat.toDigitsCore 10 (fuel + 1) n ds =
            Nat.digitChar (n % 10) :: ds := by
          rw [Nat.toDigitsCore]
          simp only [if_pos h]
        rw [hstep, List.foldl_cons]
        have hlt : n < 10 := by omega
        have hmod : n % 10 = n := Nat.mod_eq_of_lt hlt
        have hpush : pushDigits a n = 10 * a + n := by
          rw [pushDigits, if_pos hlt]
        rw [hmod, digitVal_digitChar n hlt, hpush]
      · have hstep : Nat.toDigitsCore 10 (fuel + 1) n ds =
            Nat.toDigitsCore 10 fuel (n / 10) (Nat.digitChar (n % 10) :: ds) := by
          rw [Nat.toDigitsCore]
          simp only [if_neg h]
        rw [hstep]
        have hdiv : n / 10 < fuel := by omega
        rw [ih (n / 10) hdiv (Nat.digitChar (n % 10) :: ds) a, List.foldl_cons]
        rw [digitVal_digitChar (n % 10) (by omega)]
        have hpush : pushDigits a n = 10 * pushDigits a (n / 10) + n % 10 := by
          rw [pushDigits, if_neg (by omega : ¬ n < 10)]
        rw [hpush]

/-- `pushDigits` from an empty accumulator rebuilds the number. -/
theorem pushDigits_zero : ∀ n, pushDigits 0 n = n := by
  intro n
  induction n using Nat.strong_induction_on with
  | _ n ih =>
      by_cases h : n < 10
      · rw [pushDigits, if_pos h]
        omega
      · rw [pushDigits, if_neg h, ih (n / 10) (by omega)]
        omega

/-- Decoding the decimal representation is the identity. -/
theorem valDigits_repr (n : ℕ) : valDigits (Nat.repr n).data = n := by
  have h1 : (Nat.repr n).data = Nat.toDigitsCore 10 (n + 1) n [] := rfl
  rw [h1, valDigits]
  rw [toDigitsCore_foldl (n + 1) n (Nat.lt_succ_self n) [] 0]
  rw [List.foldl_nil]
  exact pushDigits_zero n

/-- The decimal representation of naturals is injective. -/
theorem natRepr_inj {m n : ℕ} (h : Nat.repr m = Nat.repr n) : m = n := by
  rw [← valDigits_repr m, ← valDigits_repr n, h]

/-- `joinBar` on a cons with nonempty tail. -/
theorem joinBar_cons (q : String) (l : List String) (hl : l ≠ []) :
    joinBar (q :: l) = q ++ "|" ++ joinBar l := by
  cases l with
  | nil => exact absurd rfl hl
  | cons s t => rfl

/-- Cancelling a common separated suffix. -/
theorem append_bar_inj {a b J : String} (h : a ++ "|" ++ J = b ++ "|" ++ J) :
    a = b := by
  have hd := congrArg String.data h
  simp only [String.data_append] at hd
  exact String.ext (List.append_cancel_right (List.append_cancel_right hd))

/-- Cancelling a common separated prefix. -/
theorem bar_append_inj {q X Y : String} (h : q ++ "|" ++ X = q ++ "|" ++ Y) :
    X = Y := by
  have hd := congrArg String.data h
  simp only [String.data_append] at hd
  exact String.ext (List.append_cancel_left hd)

/-- Two join results that differ in exactly one component differ. -/
theorem joinBar_oneDiff_ne {a b : String} (hne : a ≠ b) :
    ∀ (P S : List String), joinBar (P ++ a :: S) ≠ joinBar (P ++ b :: S) := by
  intro P
  induction P with
  | nil =>
      intro S h
      cases S with
      | nil =>
          have h2 : a = b := h
          exact hne h2
      | cons s t =>
          have h2 : a ++ "|" ++ joinBar (s :: t) = b ++ "|" ++ joinBar (s :: t) := h
          exact hne (append_bar_inj h2)
  | cons q P ih =>
      intro S h
      rw [List.cons_append, List.cons_append] at h
      have hne1 : P ++ a :: S ≠ [] := by simp
      have hne2 : P ++ b :: S ≠ [] := by simp
      rw [joinBar_cons q _ hne1, joinBar_cons q _ hne2] at h
      exact ih S (bar_append_inj h)

/-- Two encoded pairs with the same key but different counts differ. -/
theorem encodePair_ne {k : String} {m n : ℕ} (hmn : m ≠ n) :
    k ++ ":" ++ toString m ≠ k ++ ":" ++ toString n := by
  intro h
  apply hmn
  apply natRepr_inj
  have hd := congrArg String.data h
  simp only [String.data_append] at hd
  exact String.ext (List.append_cancel_left hd)

/-- Inserting two elements with equal keys into the same list places them
at the same position. -/
theorem orderedInsert_oneDiff_elem {x y : String × ℕ} (hxy : x.1 = y.1) :
    ∀ L : List (String × ℕ),
      ∃ P2 S2,
        List.orderedInsert (fun p q => p.1 ≤ q.1) x L = P2 ++ x :: S2 ∧
        List.orderedInsert (fun p q => p.1 ≤ q.1) y L = P2 ++ y :: S2 := by
  intro L
  induction L with
  | nil => exact ⟨[], [], rfl, rfl⟩
  | cons b t ih =>
      by_cases h : x.1 ≤ b.1
      · refine ⟨[], b :: t, ?_, ?_⟩
        · rw [List.orderedInsert, if_pos h]
          rfl
        · rw [List.orderedInsert, if_pos (show y.1 ≤ b.1 by rw [← hxy]; exact h)]
          rfl
      · obtain ⟨P2, S2, h1, h2⟩ := ih
        refine ⟨b :: P2, S2, ?_, ?_⟩
        · rw [List.orderedInsert, if_neg h, h1]
          rfl
        · rw [List.orderedInsert,
            if_neg (show ¬ y.1 ≤ b.1 by rw [← hxy]; exact h), h2]
          rfl

/-- Inserting any element into two lists that differ in one equal-keyed
component keeps them differing in just that component. -/
theorem orderedInsert_oneDiff_other {x y : String × ℕ} (hxy : x.1 = y.1)
    (q : String × ℕ) :
    ∀ (P S : List (String × ℕ)),
      ∃ P2 S2,
        List.orderedInsert (fun p1 p2 => p1.1 ≤ p2.1) q (P ++ x :: S) =
          P2 ++ x :: S2 ∧
        List.orderedInsert (fun p1 p2 => p1.1 ≤ p2.1) q (P ++ y :: S) =
          P2 ++ y :: S2 := by
  intro P
  induction P with
  | nil =>
      intro S
      by_cases h : q.1 ≤ x.1
      · refine ⟨[q], S, ?_, ?_⟩
        · show List.orderedInsert _ q (x :: S) = _
          rw [List.orderedInsert, if_pos h]
          rfl
        · show List.orderedInsert _ q (y :: S) = _
          rw [List.orderedInsert, if_pos (show q.1 ≤ y.1 by rw [← hxy]; exact h)]
          rfl
      · refine ⟨[], List.orderedInsert (fun p1 p2 => p1.1 ≤ p2.1) q S, ?_, ?_⟩
        · show List.orderedInsert _ q (x :: S) = _
          rw [List.orderedInsert, if_neg h]
          rfl
        · show List.orderedInsert _ q (y :: S) = _
          rw [List.orderedInsert,
            if_neg (show ¬ q.1 ≤ y.1 by rw [← hxy]; exact h)]
          rfl
  | cons b P ih =>
      intro S
      obtain ⟨P2, S2, h1, h2⟩ := ih S
      by_cases h : q.1 ≤ b.1
      · refine ⟨q :: b :: P, S, ?_, ?_⟩
        · show List.orderedInsert _ q (b :: (P ++ x :: S)) = _
          rw [List.orderedInsert, if_pos h]
          rfl
        · show List.orderedInsert _ q (b :: (P ++ y :: S)) = _
          rw [List.orderedInsert, if_pos h]
          rfl
      · refine ⟨b :: P2, S2, ?_, ?_⟩
        · show List.orderedInsert _ q (b :: (P ++ x :: S)) = _
          rw [List.orderedInsert, if_neg h, h1]
          rfl
        · show List.orderedInsert _ q (b :: (P ++ y :: S)) = _
          rw [List.orderedInsert, if_neg h, h2]
          rfl

/-- Sorting two lists that differ in one equal-keyed component yields
results that differ in just that component, at the same position. -/
theorem insertionSort_oneDiff {x y : String × ℕ} (hxy : x.1 = y.1) :
    ∀ (pre post : List (String × ℕ)),
      ∃ P S,
        List.insertionSort (fun p q => p.1 ≤ q.1) (pre ++ x :: post) =
          P ++ x :: S ∧
        List.insertionSort (fun p q => p.1 ≤ q.1) (pre ++ y :: post) =
          P ++ y :: S := by
  intro pre
  induction pre with
  | nil =>
      intro post
      simp only [List.nil_append]
      rw [List.insertionSort, List.insertionSort]
      exact orderedInsert_oneDiff_elem hxy (List.insertionSort _ post)
  | cons b pre ih =>
      intro post
      obtain ⟨P, S, h1, h2⟩ := ih post
      obtain ⟨P2, S2, g1, g2⟩ := orderedInsert_oneDiff_other hxy b P S
      refine ⟨P2, S2, ?_, ?_⟩
      · rw [List.cons_append, List.insertionSort, h1]
        exact g1
      · rw [List.cons_append, List.insertionSort, h2]
        exact g2

/-- The encoded sorted seg list equals the encoded sorted pair list. -/
theorem sortedEncode_eq (segs : List Seg) :
    (List.insertionSort (fun a b => a.id ≤ b.id) segs).map
      (fun s => s.id ++ ":" ++ toString s.points.length) =
    (List.insertionSort (fun p q : String × ℕ => p.1 ≤ q.1)
      (segs.map fun s => (s.id, s.points.length))).map
      (fun p => p.1 ++ ":" ++ toString p.2) := by
  rw [← insertionSort_map (fun s : Seg => (s.id, s.points.length))
    (fun a b => a.id ≤ b.id) (fun p q => p.1 ≤ q.1) (fun a b => Iff.rfl) segs]
  rw [List.map_map]
  rfl

/-- Replacing one segment's point list by one of a different length
changes the version data string. -/
theorem graphVersionData_update_ne (pre post : List Seg) (s t : Seg)
    (hid : t.id = s.id) (hlen : t.points.length ≠ s.points.length) :
    graphVersionData (pre ++ s :: post) ≠ graphVersionData (pre ++ t :: post) := by
  rw [graphVersionData, graphVersionData, sortedEncode_eq, sortedEncode_eq]
  rw [List.map_append, List.map_cons, List.map_append, List.map_cons]
  obtain ⟨P, S, h1, h2⟩ := insertionSort_oneDiff
    (show ((s.id, s.points.length) : String × ℕ).1 =
      ((t.id, t.points.length) : String × ℕ).1 from hid.symm)
    (pre.map fun s2 => (s2.id, s2.points.length))
    (post.map fun s2 => (s2.id, s2.points.length))
  rw [h1, h2]
  rw [List.map_append, List.map_cons, List.map_append, List.map_cons]
  refine joinBar_oneDiff_ne ?_ _ _
  show s.id ++ ":" ++ toString s.points.length ≠
    t.id ++ ":" ++ toString t.points.length
  rw [hid]
  exact encodePair_ne (fun he => hlen he.symm)

/-- C7: with an injective (collision-free) digest, the fingerprint depends
only on the multiset of (segment id, point count) pairs — identical pairs
in any order hash alike when ids are duplicate-free — and replacing any
one segment's point list by one with a different point count changes the
fingerprint. -/
theorem graph_fingerprint_contract (hash : String → String)
    (hinj : Function.Injective hash) (segs1 segs2 : List Seg)
    (hperm : (segs1.map fun s => (s.id, s.points.length)).Perm
      (segs2.map fun s => (s.id, s.points.length)))
    (hnd : (segs1.map Seg.id).Nodup)
    (pre post : List Seg) (s t : Seg)
    (hid : t.id = s.id) (hlen : t.points.length ≠ s.points.length) :
    compute_graph_version hash segs1 = compute_graph_version hash segs2 ∧
    compute_graph_version hash (pre ++ s :: post) ≠
      compute_graph_version hash (pre ++ t :: post) := by
  constructor
  · rw [compute_graph_version, compute_graph_version,
      graphVersionData_perm segs1 segs2 hperm hnd]
  · intro h
    exact graphVersionData_update_ne pre post s t hid hlen (hinj h)

/-- Witness for C7: the two-segment set in both orders hashes alike, and
growing segment "a" from one point to two changes the fingerprint (with
the identity in place of the digest). -/
theorem graph_fingerprint_contract_witness :
    Function.Injective (id : String → String) ∧
    (([⟨"a", [(0, 0, 0)], 0, 0, []⟩, ⟨"b", [(0, 0, 0), (0, 0, 0)], 0, 0, []⟩] : List Seg).map fun s => (s.id, s.points.length)).Perm
      (([⟨"b", [(0, 0, 0), (0, 0, 0)], 0, 0, []⟩, ⟨"a", [(0, 0, 0)], 0, 0, []⟩] : List Seg).map fun s => (s.id, s.points.length)) ∧
    (([⟨"a", [(0, 0, 0)], 0, 0, []⟩, ⟨"b", [(0, 0, 0), (0, 0, 0)], 0, 0, []⟩] : List Seg).map Seg.id).Nodup ∧
    (⟨"a", [(0, 0, 0), (0, 0, 0)], 0, 0, []⟩ : Seg).id = (⟨"a", [(0, 0, 0)], 0, 0, []⟩ : Seg).id ∧
    (⟨"a", [(0, 0, 0), (0, 0, 0)], 0, 0, []⟩ : Seg).points.length ≠ (⟨"a", [(0, 0, 0)], 0, 0, []⟩ : Seg).points.length ∧
    (compute_graph_version id ([⟨"a", [(0, 0, 0)], 0, 0, []⟩, ⟨"b", [(0, 0, 0), (0, 0, 0)], 0, 0, []⟩] : List Seg) =
       compute_graph_version id ([⟨"b", [(0, 0, 0), (0, 0, 0)], 0, 0, []⟩, ⟨"a", [(0, 0, 0)], 0, 0, []⟩] : List Seg) ∧
     compute_graph_version id ([] ++ (⟨"a", [(0, 0, 0)], 0, 0, []⟩ : Seg) :: []) ≠
       compute_graph_version id ([] ++ (⟨"a", [(0, 0, 0), (0, 0, 0)], 0, 0, []⟩ : Seg) :: [])) := by
  have hinj : Function.Injective (id : String → String) := fun a b h => h
  have hperm : (([⟨"a", [(0, 0, 0)], 0, 0, []⟩, ⟨"b", [(0, 0, 0), (0, 0, 0)], 0, 0, []⟩] : List Seg).map fun s => (s.id, s.points.length)).Perm
      (([⟨"b", [(0, 0, 0), (0, 0, 0)], 0, 0, []⟩, ⟨"a", [(0, 0, 0)], 0, 0, []⟩] : List Seg).map fun s => (s.id, s.points.length)) := by
    decide
  have hnd : (([⟨"a", [(0, 0, 0)], 0, 0, []⟩, ⟨"b", [(0, 0, 0), (0, 0, 0)], 0, 0, []⟩] : List Seg).map Seg.id).Nodup := by decide
  have hid : (⟨"a", [(0, 0, 0), (0, 0, 0)], 0, 0, []⟩ : Seg).id = (⟨"a", [(0, 0, 0)], 0, 0, []⟩ : Seg).id := rfl
  have hlen : (⟨"a", [(0, 0, 0), (0, 0, 0)], 0, 0, []⟩ : Seg).points.length ≠ (⟨"a", [(0, 0, 0)], 0, 0, []⟩ : Seg).points.length := by decide
  exact ⟨hinj, hperm, hnd, hid, hlen,
    graph_fingerprint_contract id hinj _ _ hperm hnd [] [] _ _ hid hlen⟩
